import Mathlib

/-! Console of esp8266-frankenstein (`src/console.c`)

A shallow embedding of the command console: the dispatcher `execute`, the
completion engine `completion`, and the per-character input path
`console_insert` with its passthrough escape gesture.

Conventions of the embedding.

* A C string is the list of its characters before the terminating NUL
  (`CStr`); the type carries the fact that no character of it is NUL.
* The file-level and function-level `static` variables become fields of an
  explicit state (`Console`, `Scratch`) that every operation takes and returns.
* Calls that leave the file (`console_printf`, `ets_uart_printf`, the line
  editor `microrl_*`) append an `Event` to the trace of the state.
* `uint32` values are naturals reduced modulo `2 ^ 32`; `int` values are
  integers.
* Reading `argv[0]` of an empty argument vector, and writing through a null or
  too short candidate array, have no defined behaviour: the operation then
  returns `none`.
-/

namespace Frankenstein

/-! ## C strings and the libc functions used by the console -/

/-- The NUL character, terminator of C strings. -/
def NUL : Char := Char.ofNat 0

/-- A C string: its characters up to, and without, the terminating NUL. -/
structure CStr where
  chars : List Char
  nul_free : NUL ∉ chars

instance : DecidableEq CStr := fun a b =>
  decidable_of_iff (a.chars = b.chars)
    ⟨fun h => by cases a; cases b; cases h; rfl, fun h => by rw [h]⟩

/-- The C string denoted by a literal: the characters before the first NUL. -/
def lit (s : String) : CStr :=
  ⟨s.toList.takeWhile (fun c => c != NUL), fun h => by
    have := List.mem_takeWhile_imp h
    simp at this⟩

/-- Function `strlen`: number of characters before the terminator. -/
def strlen (s : CStr) : Nat := s.chars.length

/-- Pointer arithmetic `s + n` on a string of at least `n` characters. -/
def CStr.drop (s : CStr) (n : Nat) : CStr :=
  ⟨s.chars.drop n, fun h => s.nul_free (List.mem_of_mem_drop h)⟩

/-- Character loop of `strcmp`: the terminator of an exhausted string compares
as `0` against the current character of the other one. -/
def strcmpChars : List Char → List Char → Int
  | [], [] => 0
  | [], b :: _ => 0 - (b.toNat : Int)
  | a :: _, [] => (a.toNat : Int)
  | a :: as, b :: bs => if a = b then strcmpChars as bs else (a.toNat : Int) - (b.toNat : Int)

/-- Function `strcmp`. -/
def strcmp (a b : CStr) : Int := strcmpChars a.chars b.chars

/-- Character loop of `strncmp`: as `strcmpChars`, over at most `n` characters. -/
def strncmpChars : List Char → List Char → Nat → Int
  | _, _, 0 => 0
  | [], [], _ + 1 => 0
  | [], b :: _, _ + 1 => 0 - (b.toNat : Int)
  | a :: _, [], _ + 1 => (a.toNat : Int)
  | a :: as, b :: bs, n + 1 =>
    if a = b then strncmpChars as bs n else (a.toNat : Int) - (b.toNat : Int)

/-- Function `strncmp`. -/
def strncmp (a b : CStr) (n : Nat) : Int := strncmpChars a.chars b.chars n

/-- Conversion `%d` of the printf family. -/
def fmt_d (n : Int) : List Char :=
  if n < 0 then '-' :: Nat.toDigits 10 n.natAbs else Nat.toDigits 10 n.toNat

/-! ## Console state -/

/-- What the console sends to its collaborators. -/
inductive Event where
  /-- Text written through the `console_printf` function pointer. -/
  | printf (text : List Char)
  /-- The diagnostic mirror `ets_uart_printf("@%c,%d", c, c)`. -/
  | uart (c : Char)
  /-- A prompt redraw, `microrl_print_prompt(prl)`. -/
  | prompt
  /-- A character handed to the line editor, `microrl_insert_char(prl, c)`. -/
  | insert_char (c : Char)
  deriving DecidableEq, Repr

/-- The mutable variables of `console.c` outside `completion`, with the trace
of emitted events. `esc_time` and `esc_count` are the statics of
`console_insert`. -/
structure Console where
  console_locked : Int
  passthrough : Int
  esc_time : Nat
  esc_count : Int
  trace : List Event
  deriving DecidableEq, Repr

/-- The constants that `console.c` takes from headers outside the file. -/
structure Config where
  KEY_ESC : Char
  KEY_ETX : Char
  ESC_COUNT : Int
  ESC_SPACE : Nat

/-- A call `console_printf(...)` whose formatted text is `text`. -/
def console_printf (s : Console) (text : List Char) : Console :=
  { s with trace := s.trace ++ [Event.printf text] }

/-- A command handler `int (*handler)(int argc, const char* const* argv)`: it
may read and change the console state and returns an `int`. -/
abbrev Handler := Int → List CStr → Console → Int × Console

/-- An entry of the command table, `struct console_cmd`. -/
structure console_cmd where
  name : CStr
  handler : Handler
  help : CStr
  required_args : Int
  maximum_args : Int
  interrupt : Option (Console → Console)

/-! ## Dispatcher -/

/-- Text of the `err_more_args` message. -/
def msg_more_args (a0 : CStr) (required argc : Int) : List Char :=
  "\nCommand ".toList ++ a0.chars ++ " requires at least ".toList ++ fmt_d required
    ++ " args, ".toList ++ fmt_d argc ++ " given\n".toList

/-- Text of the `err_too_many_args` message. -/
def msg_too_many_args (a0 : CStr) (maximum argc : Int) : List Char :=
  "\nCommand ".toList ++ a0.chars ++ " takes a maximum of ".toList ++ fmt_d maximum
    ++ " args, ".toList ++ fmt_d argc ++ " given\n".toList

/-- Text of the message printed when the scan finds no entry. -/
def msg_not_found (a0 : CStr) : List Char :=
  "\nCommand ".toList ++ a0.chars ++ " not found, type 'help' for a list\n".toList

/-- The `FOR_EACH_CMD` loop of `execute` over the remaining entries, with the
code after the loop and the two error labels. -/
def execute_loop (argc : Int) (argv : List CStr) (a0 : CStr) :
    List console_cmd → Console → Int × Console
  | [], s => (1, console_printf s (msg_not_found a0))
  | cmd :: cmds, s =>
    if strcmp cmd.name a0 = 0 then
      if cmd.required_args ≠ -1 ∧ argc < cmd.required_args then
        (1, console_printf s (msg_more_args a0 cmd.required_args argc))
      else if cmd.maximum_args ≠ -1 ∧ argc > cmd.maximum_args then
        (1, console_printf s (msg_too_many_args a0 cmd.maximum_args argc))
      else
        (0, (cmd.handler argc argv s).2)
    else execute_loop argc argv a0 cmds s

/-- Function `execute`, over the command table `reg` (the entries from
`cmd_first` up to `cmd_last`). -/
def execute (reg : List console_cmd) (argc : Int) (argv : List CStr) (s : Console) :
    Option (Int × Console) :=
  match argv with
  | [] => none
  | a0 :: _ => some (execute_loop argc argv a0 reg (console_printf s "\n".toList))

/-- The built-in handler `do_help`; `rows` holds the name and the help text of
every entry of the command table, in table order. -/
def do_help (rows : List (CStr × CStr)) : Handler := fun _ _ s =>
  (0, rows.foldl
    (fun t r => console_printf t
      (r.1.chars ++ List.replicate (10 - r.1.chars.length) ' ' ++ " - ".toList
        ++ r.2.chars ++ "\n".toList))
    (console_printf s "\n".toList))

/-- The table entry `cmd_first`, placed by the linker at position zero. -/
def cmd_first (rows : List (CStr × CStr)) : console_cmd :=
  { name := lit "help"
    handler := do_help rows
    help := lit "Show this message"
    required_args := -1
    maximum_args := -1
    interrupt := none }

/-! ## Lock gate and passthrough -/

/-- Function `console_lock`. -/
def console_lock (s : Console) (l : Int) : Console :=
  let s1 := { s with console_locked := l }
  if l = 0 then { s1 with trace := s1.trace ++ [Event.prompt] } else s1

/-- Function `enable_passthrough`. -/
def enable_passthrough (s : Console) (v : Int) : Console :=
  console_lock { s with passthrough := v } v

/-- Subtraction of two `uint32` values. -/
def sub32 (a b : Nat) : Nat := (a % 2 ^ 32 + 2 ^ 32 - b % 2 ^ 32) % 2 ^ 32

/-- Text printed when the escape gesture ends passthrough. -/
def msg_serial : List Char := "console on serial line\n".toList

/-- Function `console_insert`; `now` is what `system_get_time()` returns when
the function reads the clock. The line editor behind `microrl_insert_char` is
outside the file: the call is recorded in the trace. The increment
`++esc_count` is the exact successor. -/
def console_insert (cfg : Config) (s : Console) (c : Char) (now : Nat) : Console :=
  if s.passthrough ≠ 0 then
    let s1 := { s with trace := s.trace ++ [Event.uart c] }
    if c ≠ cfg.KEY_ESC then
      { s1 with esc_count := 0 }
    else
      let now32 := now % 2 ^ 32
      let s2 := { s1 with esc_count := s1.esc_count + 1 }
      let s3 :=
        if s2.esc_count > 1 then
          if sub32 now32 s2.esc_time < cfg.ESC_SPACE then
            { s2 with esc_count := 0 }
          else if s2.esc_count = cfg.ESC_COUNT then
            { console_printf (enable_passthrough s2 0) msg_serial with esc_count := 0 }
          else s2
        else s2
      { s3 with esc_time := now32 }
  else if s.console_locked = 0 ∨ c = cfg.KEY_ETX then
    { s with trace := s.trace ++ [Event.insert_char c] }
  else s

/-- Function `console_write`: the characters of the buffer, each with the clock
value of its turn, go through `console_insert` in order. -/
def console_write (cfg : Config) (s : Console) (buf : List (Char × Nat)) : Console :=
  buf.foldl (fun t cn => console_insert cfg t cn.1 cn.2) s

/-- What a function of the printf family writes for a format string when the
call passes no further argument: ordinary characters are copied and
`%%` writes one `%`; any other use of `%` asks for an argument that is not
there, which has no defined behaviour. -/
def format_no_args : List Char → Option (List Char)
  | [] => some []
  | c :: cs =>
    if c = '%' then
      match cs with
      | [] => none
      | d :: ds => if d = '%' then (format_no_args ds).map (fun t => '%' :: t) else none
    else (format_no_args cs).map (fun t => c :: t)

/-- Function `rl_print`, the print callback handed to the line editor: on an
unlocked console `str` goes to `console_printf` as the format string, with no
further argument. -/
def rl_print (s : Console) (str : List Char) : Option Console :=
  if s.console_locked = 0 then (format_no_args str).map (console_printf s) else some s

/-- Function `sigint`, the interrupt callback handed to the line editor. -/
def sigint (reg : List console_cmd) (s : Console) : Console :=
  console_lock
    (reg.foldl
      (fun t cmd => match cmd.interrupt with
        | some f => f t
        | none => t)
      (console_printf s "\nINTERRUPT\n".toList))
    0

/-! ## Completion engine -/

/-- The statics of `completion`. The buffer `sb` is the sequence of bytes
appended since it was last cleared. The candidate array `compl` is `none` for
the null pointer, else the list of its slots, whose length is the real
capacity; a slot holds `none` for a null pointer, else the offset in `sb` at
which the string it points to starts. -/
structure Scratch where
  sb : List Char
  compl : Option (List (Option Nat))
  complsize : Nat
  deriving DecidableEq, Repr

/-- The statics of `completion` before the first call. -/
def Scratch.init : Scratch := { sb := [], compl := none, complsize := 0 }

/-- Modelled from the spec: `strbuf_clear` of `strbuf.h`, which is outside the
file; it clears the scratch character buffer. -/
def strbuf_clear (_ : List Char) : List Char := []

/-- Modelled from the spec: `strbuf_memcpy` of `strbuf.h`, which is outside the
file; it appends to the scratch buffer the `n` bytes read from `src`. -/
def strbuf_memcpy (sb : List Char) (src : List Char) (n : Nat) : List Char :=
  sb ++ src.take n

/-- Modelled from the spec: `strbuf_endptr` of `strbuf.h`, which is outside the
file; the end of the appended bytes, as an offset from the start of the buffer
(the candidate array records the offset of each appended string). -/
def strbuf_endptr (sb : List Char) : Nat := sb.length

/-- The memory a `const char*` to the string `s` points to: its characters and
the terminator. -/
def CStr.bytes (s : CStr) : List Char := s.chars ++ [NUL]

/-- The C string that starts at offset `off` of the buffer. -/
def cstr_at (buf : List Char) (off : Nat) : CStr :=
  ⟨(buf.drop off).takeWhile (fun c => c != NUL), fun h => by
    have := List.mem_takeWhile_imp h
    simp at this⟩

/-- The libc function `realloc` on the candidate array: on success an array of
`n` slots that keeps the old contents as far as they fit, on failure the null
pointer (the old array is then still allocated, but `completion` has no
pointer to it any more). -/
def realloc (old : Option (List (Option Nat))) (n : Nat) (ok : Bool) :
    Option (List (Option Nat)) :=
  if ok then
    some (((old.getD []).take n) ++ List.replicate (n - (old.getD []).length) none)
  else none

/-- The static list `noroom`, without its terminator. -/
def noroom : List CStr := [lit "completion:", lit "not", lit "enough", lit "memory"]

/-- The static list `nocompl`, without its terminator. -/
def nocompl : List CStr := []

/-- What the caller reads from a returned candidate array: the strings its
slots point to, up to the first null slot. -/
def read_candidates (sb : List Char) : List (Option Nat) → List CStr
  | [] => []
  | none :: _ => []
  | some off :: slots => cstr_at sb off :: read_candidates sb slots

/-- The first `FOR_EACH_CMD` loop of `completion`: counts the matching entries. -/
def count_loop (part : CStr) (partlen : Nat) : List console_cmd → Nat → Nat
  | [], ncompl => ncompl
  | cmd :: cmds, ncompl =>
    if strncmp cmd.name part partlen = 0 then count_loop part partlen cmds (ncompl + 1)
    else count_loop part partlen cmds ncompl

/-- The second `FOR_EACH_CMD` loop of `completion`, on the buffer, the slots of
the candidate array and the index `i`. -/
def fill_loop (part : CStr) (partlen ncompl : Nat) :
    List console_cmd → List Char × List (Option Nat) × Nat →
      Option (List Char × List (Option Nat) × Nat)
  | [], st => some st
  | cmd :: cmds, (sb, arr, i) =>
    if strncmp cmd.name part partlen = 0 then
      let src := cmd.name.drop (if i = 0 ∧ ncompl > 1 then partlen else 0)
      let srcsize := strlen src + 1
      let sb1 := strbuf_memcpy sb src.bytes srcsize
      if i < arr.length then
        fill_loop part partlen ncompl cmds
          (sb1, arr.set i (some (strbuf_endptr sb1 - srcsize)), i + 1)
      else none
    else fill_loop part partlen ncompl cmds (sb, arr, i)

/-- The part of `completion` after the capacity check: both passes over the
table and the terminator. -/
def completion_fill (reg : List console_cmd) (part : CStr) (partlen ncompl : Nat)
    (st : Scratch) : Option (List CStr × Scratch) :=
  match st.compl with
  | none => none
  | some arr =>
    match fill_loop part partlen ncompl reg (strbuf_clear st.sb, arr, 0) with
    | none => none
    | some (sb, arr1, i) =>
      if i < arr1.length then
        let arr2 := arr1.set i none
        some (read_candidates sb arr2, { st with sb := sb, compl := some arr2 })
      else none

/-- Function `completion`; `alloc_ok` tells whether the `realloc` of the call,
if it makes one, succeeds. The result is the list of strings the caller reads
from the returned array. -/
def completion (reg : List console_cmd) (argc : Int) (argv : List CStr) (alloc_ok : Bool)
    (st : Scratch) : Option (List CStr × Scratch) :=
  if argc = 1 then
    match argv with
    | [] => none
    | part :: _ =>
      let partlen := strlen part
      let ncompl := count_loop part partlen reg 0
      if ncompl + 1 > st.complsize then
        match realloc st.compl (ncompl + 1) alloc_ok with
        | none => some (noroom, { st with compl := none })
        | some arr =>
          completion_fill reg part partlen ncompl
            { st with compl := some arr, complsize := ncompl + 1 }
      else completion_fill reg part partlen ncompl st
  else some (nocompl, st)

/-- The real capacity of the candidate array: the number of its slots, none for
the null pointer. -/
def Scratch.capacity (st : Scratch) : Nat :=
  match st.compl with
  | none => 0
  | some arr => arr.length

/-- The names of the entries that have `part` as a prefix, in table order. -/
def matching_names (reg : List console_cmd) (part : CStr) : List CStr :=
  (reg.filter (fun cmd => decide (part.chars <+: cmd.name.chars))).map (fun cmd => cmd.name)

/-- The input buffer made of escape keys only, one for each clock value of
`times`. -/
def esc_presses (cfg : Config) (times : List Nat) : List (Char × Nat) :=
  times.map (fun t => (cfg.KEY_ESC, t))

/-- The newline character. -/
def NL : Char := Char.ofNat 10

/-- The text that `console_printf("%-10s - %s\n", cmd->name, cmd->help)` of
`do_help` writes for an entry with the given name and help text, without the
final newline: the name, padded with blanks on the right to ten characters,
then ` - ` and the help text. -/
def help_body (r : CStr × CStr) : List Char :=
  r.1.chars ++ List.replicate (10 - r.1.chars.length) ' ' ++ " - ".toList ++ r.2.chars

/-- The name and the help text of every entry, in table order: what the
`FOR_EACH_CMD` loop of `do_help` reads from the table. -/
def table_rows (reg : List console_cmd) : List (CStr × CStr) :=
  reg.map (fun cmd => (cmd.name, cmd.help))

/-- The characters that a sequence of events writes through `console_printf`. -/
def console_text : List Event → List Char
  | [] => []
  | Event.printf text :: es => text ++ console_text es
  | Event.uart _ :: es => console_text es
  | Event.prompt :: es => console_text es
  | Event.insert_char _ :: es => console_text es

/-- The lines of a text: the runs of characters between its newlines, each
newline ending a line; characters after the last newline make a last line. -/
def split_lines : List Char → List (List Char)
  | [] => []
  | c :: cs =>
    if c = NL then [] :: split_lines cs
    else
      match split_lines cs with
      | [] => [[c]]
      | l :: ls => (c :: l) :: ls

/-- A call made on the console: a character fed to `console_insert`, with the
clock value of its turn, or a call of `enable_passthrough`. -/
inductive Call where
  | insert (c : Char) (now : Nat)
  | passthrough (v : Int)

/-- The console after a sequence of calls. -/
def run_calls (cfg : Config) (s : Console) (calls : List Call) : Console :=
  calls.foldl
    (fun t call => match call with
      | Call.insert c now => console_insert cfg t c now
      | Call.passthrough v => enable_passthrough t v)
    s

/-- A sequence of `completion` calls, each given as its `argc` and `argv`, whose
allocations all succeed: the statics after the last call, or `none` when one
of the calls has no defined behaviour. -/
def completion_run (reg : List console_cmd) : List (Int × List CStr) → Scratch → Option Scratch
  | [], st => some st
  | call :: calls, st =>
    match completion reg call.1 call.2 true st with
    | none => none
    | some res => completion_run reg calls res.2

/-! ## Concrete tables and states used by the examples -/

/-- A handler that prints `tag` and returns `r`. -/
def sample_handler (tag : String) (r : Int) : Handler :=
  fun _ _ s => (r, console_printf s tag.toList)

/-- An entry named `n` whose handler prints `ran` and returns `7`. -/
def sample_cmd (n : String) (required maximum : Int) : console_cmd :=
  { name := lit n
    handler := sample_handler "ran" 7
    help := lit "sample"
    required_args := required
    maximum_args := maximum
    interrupt := none }

/-- A table with `help` and a command `cmd` that takes exactly two arguments. -/
def sample_reg : List console_cmd :=
  [sample_cmd "help" (-1) (-1), sample_cmd "cmd" 2 2]

/-- The console at boot with passthrough disabled. -/
def console0 : Console :=
  { console_locked := 0, passthrough := 0, esc_time := 0, esc_count := 0, trace := [] }

/-- A table with four entries, three of which start with `he`. -/
def compl_reg : List console_cmd :=
  [sample_cmd "help" (-1) (-1), sample_cmd "hello" 0 0, sample_cmd "x" 0 0, sample_cmd "hex" 0 0]

/-- The table that holds only the built-in `help` entry. -/
def help_reg : List console_cmd :=
  [cmd_first [(lit "help", lit "Show this message")]]

/-- The scratch state that completing `x` on `compl_reg` leaves when started
from the fresh state: a candidate array of two slots. -/
def scratch_after_x : Scratch :=
  { sb := ['x', NUL], compl := some [some 0, none], complsize := 2 }

/-- Sample constants: escape is character 27, the unlock character is 3, three
escape keys at least half a second (in microseconds) apart end passthrough. -/
def sample_cfg : Config :=
  { KEY_ESC := Char.ofNat 27, KEY_ETX := Char.ofNat 3, ESC_COUNT := 3, ESC_SPACE := 500000 }

/-- A console in passthrough, as `enable_passthrough(1)` leaves it at boot. -/
def console_passthrough : Console :=
  { console_locked := 1, passthrough := 1, esc_time := 0, esc_count := 0, trace := [] }

/-- A console in passthrough that has counted two escape keys, the second at
clock value 2000000. -/
def console_two_escapes : Console :=
  { console_locked := 1, passthrough := 1, esc_time := 2000000, esc_count := 2, trace := [] }

/-- A locked console outside passthrough, as `console_lock(1)` leaves it. -/
def console_locked1 : Console :=
  { console_locked := 1, passthrough := 0, esc_time := 0, esc_count := 0, trace := [] }

/-- A table in which the name `cmd` occurs twice: the earlier entry takes
exactly two arguments, the later one any number and prints `later`. -/
def dup_reg : List console_cmd :=
  [sample_cmd "help" (-1) (-1), sample_cmd "cmd" 2 2,
   { name := lit "cmd"
     handler := sample_handler "later" 0
     help := lit "sample"
     required_args := -1
     maximum_args := -1
     interrupt := none }]

/-- A command table as the linker builds it: `cmd_first`, whose handler lists
the whole table, followed by the commands `cmd` and `reboot`. -/
def full_reg : List console_cmd :=
  [cmd_first [(lit "help", lit "Show this message"), (lit "cmd", lit "sample"),
     (lit "reboot", lit "sample")],
   sample_cmd "cmd" 2 2, sample_cmd "reboot" 1 1]

/-- A table as the linker builds it, with a name of eleven characters. -/
def long_reg : List console_cmd :=
  [cmd_first [(lit "help", lit "Show this message"), (lit "passthrough", lit "sample")],
   sample_cmd "passthrough" 1 1]

/-! ## Facts about the libc models -/

theorem toNat_ne_zero_of_ne_NUL {c : Char} (h : c ≠ NUL) : (c.toNat : Int) ≠ 0 := by
  intro h0
  apply h
  have h1 : c.toNat = 0 := by exact_mod_cast h0
  have h2 := Char.ofNat_toNat c
  rw [h1] at h2
  exact h2.symm

theorem toNat_sub_ne_zero {a b : Char} (h : a ≠ b) : (a.toNat : Int) - (b.toNat : Int) ≠ 0 := by
  intro h0
  apply h
  have h1 : a.toNat = b.toNat := by omega
  have ha := Char.ofNat_toNat a
  have hb := Char.ofNat_toNat b
  rw [← ha, ← hb, h1]

theorem strcmpChars_eq_zero_iff : ∀ (a b : List Char), NUL ∉ a → NUL ∉ b →
    (strcmpChars a b = 0 ↔ a = b)
  | [], [], _, _ => by simp [strcmpChars]
  | [], b :: bs, _, hb => by
    have hne : b ≠ NUL := fun h => hb (by simp [h])
    have := toNat_ne_zero_of_ne_NUL hne
    simp only [strcmpChars]
    constructor
    · intro h; omega
    · intro h; cases h
  | a :: as, [], ha, _ => by
    have hne : a ≠ NUL := fun h => ha (by simp [h])
    have := toNat_ne_zero_of_ne_NUL hne
    simp only [strcmpChars]
    constructor
    · intro h; omega
    · intro h; cases h
  | a :: as, b :: bs, ha, hb => by
    have ha1 : NUL ∉ as := fun h => ha (List.mem_cons_of_mem _ h)
    have hb1 : NUL ∉ bs := fun h => hb (List.mem_cons_of_mem _ h)
    have ih := strcmpChars_eq_zero_iff as bs ha1 hb1
    simp only [strcmpChars]
    by_cases hab : a = b
    · subst hab
      simp [ih]
    · have := toNat_sub_ne_zero hab
      simp [hab, this]

theorem strcmp_eq_zero_iff (a b : CStr) : strcmp a b = 0 ↔ a = b := by
  unfold strcmp
  rw [strcmpChars_eq_zero_iff a.chars b.chars a.nul_free b.nul_free]
  constructor
  · intro h; cases a; cases b; cases h; rfl
  · intro h; rw [h]

/-! ## Dispatcher -/

theorem execute_loop_not_found (argc : Int) (argv : List CStr) (a0 : CStr) (s : Console) :
    ∀ reg : List console_cmd, (∀ cmd ∈ reg, cmd.name ≠ a0) →
      execute_loop argc argv a0 reg s = (1, console_printf s (msg_not_found a0))
  | [], _ => rfl
  | cmd :: cmds, h => by
    have hne : ¬ strcmp cmd.name a0 = 0 := by
      rw [strcmp_eq_zero_iff]
      exact h cmd (List.mem_cons_self _ _)
    simp only [execute_loop, hne, if_false]
    exact execute_loop_not_found argc argv a0 s cmds
      (fun c hc => h c (List.mem_cons_of_mem _ hc))

theorem execute_loop_found (argc : Int) (argv : List CStr) (a0 : CStr) (s : Console)
    (e : console_cmd) :
    ∀ reg : List console_cmd, reg.find? (fun cmd => decide (cmd.name = a0)) = some e →
      execute_loop argc argv a0 reg s =
        if e.required_args ≠ -1 ∧ argc < e.required_args then
          (1, console_printf s (msg_more_args a0 e.required_args argc))
        else if e.maximum_args ≠ -1 ∧ argc > e.maximum_args then
          (1, console_printf s (msg_too_many_args a0 e.maximum_args argc))
        else
          (0, (e.handler argc argv s).2)
  | [], h => by simp at h
  | cmd :: cmds, h => by
    by_cases hc : cmd.name = a0
    · have h0 : strcmp cmd.name a0 = 0 := (strcmp_eq_zero_iff _ _).2 hc
      simp only [List.find?, hc, decide_True, Option.some.injEq] at h
      subst h
      simp only [execute_loop, h0, if_true]
    · have h0 : ¬ strcmp cmd.name a0 = 0 := fun h1 => hc ((strcmp_eq_zero_iff _ _).1 h1)
      simp only [List.find?, hc, decide_False] at h
      simp only [execute_loop, h0, if_false]
      exact execute_loop_found argc argv a0 s e cmds h

/-- C1: when the first entry named `argv[0]` asks for more arguments than
`argc`, `execute` returns 1 and only prints the newline and the message with
`argv[0]`, the required count and `argc`; otherwise, when `argc` exceeds its
maximum, `execute` returns 1 and only prints the newline and the `maximum`
message. In both cases the final state is the initial one with these two texts
appended: no handler has run. -/
theorem execute_arg_count_errors (reg : List console_cmd) (argc : Int) (a0 : CStr)
    (rest : List CStr) (s : Console) (e : console_cmd)
    (hfind : reg.find? (fun cmd => decide (cmd.name = a0)) = some e) :
    (e.required_args ≠ -1 ∧ argc < e.required_args →
      execute reg argc (a0 :: rest) s =
          some (1, { s with trace := s.trace ++
            [Event.printf "\n".toList,
             Event.printf (msg_more_args a0 e.required_args argc)] })
        ∧ a0.chars <:+: msg_more_args a0 e.required_args argc
        ∧ fmt_d e.required_args <:+: msg_more_args a0 e.required_args argc
        ∧ fmt_d argc <:+: msg_more_args a0 e.required_args argc) ∧
    (¬ (e.required_args ≠ -1 ∧ argc < e.required_args) →
      e.maximum_args ≠ -1 ∧ argc > e.maximum_args →
      execute reg argc (a0 :: rest) s =
          some (1, { s with trace := s.trace ++
            [Event.printf "\n".toList,
             Event.printf (msg_too_many_args a0 e.maximum_args argc)] })
        ∧ a0.chars <:+: msg_too_many_args a0 e.maximum_args argc
        ∧ fmt_d e.maximum_args <:+: msg_too_many_args a0 e.maximum_args argc
        ∧ fmt_d argc <:+: msg_too_many_args a0 e.maximum_args argc) := by
  refine ⟨fun hreq => ⟨?_, ?_, ?_, ?_⟩, fun hreq hmax => ⟨?_, ?_, ?_, ?_⟩⟩
  · simp only [execute, execute_loop_found argc _ a0 _ e reg hfind, if_pos hreq]
    simp [console_printf]
  · exact ⟨"\nCommand ".toList, " requires at least ".toList ++ fmt_d e.required_args
      ++ " args, ".toList ++ fmt_d argc ++ " given\n".toList, by simp [msg_more_args]⟩
  · exact ⟨"\nCommand ".toList ++ a0.chars ++ " requires at least ".toList,
      " args, ".toList ++ fmt_d argc ++ " given\n".toList, by simp [msg_more_args]⟩
  · exact ⟨"\nCommand ".toList ++ a0.chars ++ " requires at least ".toList
      ++ fmt_d e.required_args ++ " args, ".toList, " given\n".toList, by simp [msg_more_args]⟩
  · simp only [execute, execute_loop_found argc _ a0 _ e reg hfind, if_neg hreq, if_pos hmax]
    simp [console_printf]
  · exact ⟨"\nCommand ".toList, " takes a maximum of ".toList ++ fmt_d e.maximum_args
      ++ " args, ".toList ++ fmt_d argc ++ " given\n".toList, by simp [msg_too_many_args]⟩
  · exact ⟨"\nCommand ".toList ++ a0.chars ++ " takes a maximum of ".toList,
      " args, ".toList ++ fmt_d argc ++ " given\n".toList, by simp [msg_too_many_args]⟩
  · exact ⟨"\nCommand ".toList ++ a0.chars ++ " takes a maximum of ".toList
      ++ fmt_d e.maximum_args ++ " args, ".toList, " given\n".toList,
      by simp [msg_too_many_args]⟩

/-- Witness of C1: the command `cmd` with `required_args = 2` and
`maximum_args = 2`, called with `argc = 1` and with `argc = 3`; the text `ran`
of its handler is printed in neither case. -/
theorem execute_arg_count_errors_witness :
    (sample_reg.find? (fun cmd => decide (cmd.name = lit "cmd")) = some (sample_cmd "cmd" 2 2)) ∧
    execute sample_reg 1 [lit "cmd"] console0 =
      some (1, { console0 with trace :=
        [Event.printf "\n".toList,
         Event.printf "\nCommand cmd requires at least 2 args, 1 given\n".toList] }) ∧
    execute sample_reg 3 [lit "cmd", lit "a", lit "b"] console0 =
      some (1, { console0 with trace :=
        [Event.printf "\n".toList,
         Event.printf "\nCommand cmd takes a maximum of 2 args, 3 given\n".toList] }) :=
  ⟨rfl,
   ((execute_arg_count_errors sample_reg 1 (lit "cmd") [] console0 (sample_cmd "cmd" 2 2)
      rfl).1 (by decide)).1,
   ((execute_arg_count_errors sample_reg 3 (lit "cmd") [lit "a", lit "b"] console0
      (sample_cmd "cmd" 2 2) rfl).2 (by decide) (by decide)).1⟩

/-- C2: when the first entry named `argv[0]` passes both argument-count
checks, `execute` returns 0 and its final state is the one that this entry's
handler, called once with the same `argc` and `argv` on the state after the
newline, leaves; the value the handler returns is dropped. -/
theorem execute_dispatch (reg : List console_cmd) (argc : Int) (a0 : CStr)
    (rest : List CStr) (s : Console) (e : console_cmd)
    (hfind : reg.find? (fun cmd => decide (cmd.name = a0)) = some e)
    (hreq : ¬ (e.required_args ≠ -1 ∧ argc < e.required_args))
    (hmax : ¬ (e.maximum_args ≠ -1 ∧ argc > e.maximum_args)) :
    execute reg argc (a0 :: rest) s =
      some (0, (e.handler argc (a0 :: rest) (console_printf s "\n".toList)).2) := by
  simp only [execute, execute_loop_found argc _ a0 _ e reg hfind, if_neg hreq, if_neg hmax]

/-- Witness of C2: `cmd` called with `argc = 2`; its handler returns 7 and
prints `ran`, `execute` returns 0 and `ran` is printed once. -/
theorem execute_dispatch_witness :
    (sample_reg.find? (fun cmd => decide (cmd.name = lit "cmd")) = some (sample_cmd "cmd" 2 2)) ∧
    ((sample_cmd "cmd" 2 2).handler 2 [lit "cmd", lit "a"]
      (console_printf console0 "\n".toList)).1 = 7 ∧
    execute sample_reg 2 [lit "cmd", lit "a"] console0 =
      some (0, { console0 with trace :=
        [Event.printf "\n".toList, Event.printf "ran".toList] }) :=
  ⟨rfl, rfl,
   execute_dispatch sample_reg 2 (lit "cmd") [lit "a"] console0 (sample_cmd "cmd" 2 2)
     rfl (by decide) (by decide)⟩

/-- C3: when no entry of the table is named `argv[0]`, `execute` returns 1 and
only prints the newline and the not-found message, which contains `argv[0]`
and the word `help`: no handler has run. -/
theorem execute_unknown_command (reg : List console_cmd) (argc : Int) (a0 : CStr)
    (rest : List CStr) (s : Console) (hnone : ∀ cmd ∈ reg, cmd.name ≠ a0) :
    execute reg argc (a0 :: rest) s =
        some (1, { s with trace := s.trace ++
          [Event.printf "\n".toList, Event.printf (msg_not_found a0)] })
      ∧ a0.chars <:+: msg_not_found a0
      ∧ " not found".toList <:+: msg_not_found a0
      ∧ "type 'help'".toList <:+: msg_not_found a0 := by
  refine ⟨?_, ?_, ?_, ?_⟩
  · simp only [execute, execute_loop_not_found argc _ a0 _ reg hnone]
    simp [console_printf]
  · exact ⟨"\nCommand ".toList, " not found, type 'help' for a list\n".toList,
      by simp [msg_not_found]⟩
  · exact ⟨"\nCommand ".toList ++ a0.chars, ", type 'help' for a list\n".toList,
      by simp [msg_not_found]⟩
  · exact ⟨"\nCommand ".toList ++ a0.chars ++ " not found, ".toList, " for a list\n".toList,
      by simp [msg_not_found]⟩

/-- Witness of C3: the command `bogus` on the sample table. -/
theorem execute_unknown_command_witness :
    (∀ cmd ∈ sample_reg, cmd.name ≠ lit "bogus") ∧
    execute sample_reg 1 [lit "bogus"] console0 =
      some (1, { console0 with trace :=
        [Event.printf "\n".toList,
         Event.printf "\nCommand bogus not found, type 'help' for a list\n".toList] }) :=
  ⟨by decide,
   (execute_unknown_command sample_reg 1 (lit "bogus") [] console0 (by decide)).1⟩

/-! ## Completion engine -/

theorem strncmpChars_eq_zero_iff : ∀ (part name : List Char), NUL ∉ part →
    (strncmpChars name part part.length = 0 ↔ part <+: name)
  | [], name, _ => by
    cases name <;> simp [strncmpChars]
  | b :: bs, [], hb => by
    have hne : b ≠ NUL := fun h => hb (by simp [h])
    have := toNat_ne_zero_of_ne_NUL hne
    simp only [strncmpChars, List.length_cons]
    constructor
    · intro h; omega
    · intro h; simp at h
  | b :: bs, a :: as, hb => by
    have hb1 : NUL ∉ bs := fun h => hb (List.mem_cons_of_mem _ h)
    have ih := strncmpChars_eq_zero_iff bs as hb1
    simp only [strncmpChars, List.length_cons]
    by_cases hab : a = b
    · subst hab
      simp [ih]
    · have := toNat_sub_ne_zero hab
      have hba : ¬ b = a := fun h => hab h.symm
      simp [hab, hba, this, List.cons_prefix_cons]

theorem strncmp_eq_zero_iff (name part : CStr) :
    strncmp name part (strlen part) = 0 ↔ part.chars <+: name.chars :=
  strncmpChars_eq_zero_iff part.chars name.chars part.nul_free

theorem count_loop_eq (part : CStr) : ∀ (reg : List console_cmd) (n : Nat),
    count_loop part (strlen part) reg n =
      n + (reg.filter (fun cmd => decide (part.chars <+: cmd.name.chars))).length
  | [], n => by simp [count_loop]
  | cmd :: cmds, n => by
    by_cases h : part.chars <+: cmd.name.chars
    · have h0 : strncmp cmd.name part (strlen part) = 0 := (strncmp_eq_zero_iff _ _).2 h
      simp only [count_loop, h0, if_true, count_loop_eq part cmds, List.filter, h, decide_True,
        List.length_cons]
      omega
    · have h0 : ¬ strncmp cmd.name part (strlen part) = 0 :=
        fun h1 => h ((strncmp_eq_zero_iff _ _).1 h1)
      simp only [count_loop, h0, if_false, count_loop_eq part cmds, List.filter, h, decide_False]

theorem takeWhile_until_NUL : ∀ (l ext : List Char), NUL ∉ l →
    (l ++ NUL :: ext).takeWhile (fun c => c != NUL) = l
  | [], ext, _ => by simp [List.takeWhile]
  | a :: as, ext, h => by
    have hne : a ≠ NUL := fun h1 => h (by simp [h1])
    have h1 : NUL ∉ as := fun h2 => h (List.mem_cons_of_mem _ h2)
    have hp : (a != NUL) = true := by simp [hne]
    rw [List.cons_append, List.takeWhile_cons, hp, takeWhile_until_NUL as ext h1]
    rfl

theorem cstr_at_append (pre ext : List Char) (s : CStr) :
    cstr_at (pre ++ s.bytes ++ ext) pre.length = s := by
  cases s with
  | mk chars hn =>
    simp only [cstr_at, CStr.bytes, CStr.mk.injEq]
    rw [List.append_assoc, List.drop_left, List.append_assoc, List.singleton_append]
    exact takeWhile_until_NUL chars ext hn

theorem read_candidates_map_some (sb : List Char) : ∀ (offs : List Nat) (r : List (Option Nat)),
    read_candidates sb (offs.map some ++ none :: r) = offs.map (cstr_at sb)
  | [], r => by simp [read_candidates]
  | o :: os, r => by simp [read_candidates, read_candidates_map_some sb os r]

theorem take_succ_set {α : Type} (arr : List α) (i : Nat) (a : α) (h : i < arr.length) :
    (arr.set i a).take (i + 1) = arr.take i ++ [a] := by
  rw [List.set_eq_take_cons_drop a h]
  have hlen : (arr.take i ++ [a]).length = i + 1 := by
    simp [List.length_take, Nat.min_eq_left (Nat.le_of_lt h)]
  have : arr.take i ++ a :: arr.drop (i + 1) = (arr.take i ++ [a]) ++ arr.drop (i + 1) := by
    simp
  rw [this, List.take_left' hlen]

theorem CStr.drop_zero (s : CStr) : s.drop 0 = s := by
  cases s; rfl

theorem strbuf_memcpy_bytes (sb : List Char) (src : CStr) :
    strbuf_memcpy sb src.bytes (strlen src + 1) = sb ++ src.bytes := by
  unfold strbuf_memcpy
  rw [List.take_of_length_le]
  simp [CStr.bytes, strlen]

theorem fill_loop_spec (part : CStr) (ncompl : Nat) :
    ∀ (cmds : List console_cmd) (sb : List Char) (arr : List (Option Nat)) (i : Nat),
      i + (cmds.filter (fun cmd => decide (part.chars <+: cmd.name.chars))).length
          ≤ arr.length →
      ∃ (tail : List Char) (offs : List Nat) (arr1 : List (Option Nat)),
        fill_loop part (strlen part) ncompl cmds (sb, arr, i)
            = some (sb ++ tail, arr1, i + offs.length) ∧
        arr1.length = arr.length ∧
        offs.length = (cmds.filter (fun cmd => decide (part.chars <+: cmd.name.chars))).length ∧
        arr1.take (i + offs.length) = arr.take i ++ offs.map some ∧
        ∀ ext : List Char, offs.map (cstr_at (sb ++ tail ++ ext)) =
          if i = 0 ∧ ncompl > 1 then
            match (cmds.filter (fun cmd => decide (part.chars <+: cmd.name.chars))).map
                (fun cmd => cmd.name) with
            | [] => []
            | n :: ns => n.drop (strlen part) :: ns
          else
            (cmds.filter (fun cmd => decide (part.chars <+: cmd.name.chars))).map
              (fun cmd => cmd.name)
  | [], sb, arr, i, _ => by
    refine ⟨[], [], arr, ?_, rfl, rfl, ?_, ?_⟩
    · simp [fill_loop]
    · simp
    · intro ext
      simp
  | cmd :: cmds, sb, arr, i, hcap => by
    by_cases h : part.chars <+: cmd.name.chars
    · have h0 : strncmp cmd.name part (strlen part) = 0 := (strncmp_eq_zero_iff _ _).2 h
      simp only [List.filter, h, decide_True, List.length_cons] at hcap
      have hi : i < arr.length := by omega
      obtain ⟨tail, offs, arr1, hrun, hlen, hoffs, htake, hread⟩ :=
        fill_loop_spec part ncompl cmds
          (sb ++ (cmd.name.drop (if i = 0 ∧ ncompl > 1 then strlen part else 0)).bytes)
          (arr.set i (some sb.length)) (i + 1) (by rw [List.length_set]; omega)
      refine ⟨(cmd.name.drop (if i = 0 ∧ ncompl > 1 then strlen part else 0)).bytes ++ tail,
        sb.length :: offs, arr1, ?_, ?_, ?_, ?_, ?_⟩
      · simp only [fill_loop, h0, if_true, strbuf_memcpy_bytes, hi, strbuf_endptr]
        have hoff : (sb ++ (cmd.name.drop
            (if i = 0 ∧ ncompl > 1 then strlen part else 0)).bytes).length
            - (strlen (cmd.name.drop (if i = 0 ∧ ncompl > 1 then strlen part else 0)) + 1)
            = sb.length := by
          simp [CStr.bytes, strlen]
        rw [hoff, hrun]
        simp only [List.length_cons, List.append_assoc]
        rw [Nat.add_assoc, Nat.add_comm 1]
      · rw [hlen, List.length_set]
      · simp [List.filter, h, hoffs]
      · have e1 : i + (sb.length :: offs).length = i + 1 + offs.length := by
          simp only [List.length_cons]; omega
        rw [e1, htake, take_succ_set arr i _ hi]
        simp
      · intro ext
        have hr := hread ext
        have hne : ¬ (i + 1 = 0 ∧ ncompl > 1) := by omega
        rw [if_neg hne] at hr
        simp only [List.map_cons, List.filter, h, decide_True]
        rw [← List.append_assoc sb, hr]
        have hfirst : cstr_at (sb ++ (cmd.name.drop
            (if i = 0 ∧ ncompl > 1 then strlen part else 0)).bytes ++ tail ++ ext) sb.length
            = cmd.name.drop (if i = 0 ∧ ncompl > 1 then strlen part else 0) := by
          rw [List.append_assoc _ tail ext]
          exact cstr_at_append sb (tail ++ ext) _
        rw [hfirst]
        by_cases hc : i = 0 ∧ ncompl > 1
        · simp only [if_pos hc]
        · simp only [if_neg hc, CStr.drop_zero]
    · have h0 : ¬ strncmp cmd.name part (strlen part) = 0 :=
        fun h1 => h ((strncmp_eq_zero_iff _ _).1 h1)
      simp only [List.filter, h, decide_False] at hcap ⊢
      simp only [fill_loop, h0, if_false]
      exact fill_loop_spec part ncompl cmds sb arr i hcap

theorem realloc_ok_length (old : Option (List (Option Nat))) (n : Nat) :
    ∃ arr, realloc old n true = some arr ∧ arr.length = n := by
  refine ⟨((old.getD []).take n) ++ List.replicate (n - (old.getD []).length) none, rfl, ?_⟩
  simp only [List.length_append, List.length_take, List.length_replicate]
  omega

theorem completion_fill_spec (reg : List console_cmd) (part : CStr) (st : Scratch)
    (arr : List (Option Nat)) (hc : st.compl = some arr)
    (hcap : (matching_names reg part).length + 1 ≤ arr.length) :
    ∃ st1 : Scratch,
      completion_fill reg part (strlen part) (matching_names reg part).length st =
        some (
          (if (matching_names reg part).length > 1 then
            match matching_names reg part with
            | [] => []
            | n :: ns => n.drop (strlen part) :: ns
          else matching_names reg part), st1) ∧
      st1.complsize = st.complsize ∧ st1.capacity = arr.length := by
  have hk : (matching_names reg part).length =
      (reg.filter (fun cmd => decide (part.chars <+: cmd.name.chars))).length := by
    simp [matching_names]
  obtain ⟨tail, offs, arr1, hrun, hlen, hoffs, htake, hread⟩ :=
    fill_loop_spec part (matching_names reg part).length reg [] arr 0 (by omega)
  have hi : offs.length < arr1.length := by omega
  refine ⟨{ st with sb := tail, compl := some (arr1.set offs.length none) }, ?_, rfl, ?_⟩
  · simp only [completion_fill, hc, strbuf_clear, hrun, Nat.zero_add, hi, if_true]
    have hset : arr1.set offs.length none =
        offs.map some ++ none :: arr1.drop (offs.length + 1) := by
      rw [List.set_eq_take_cons_drop none hi]
      simp only [Nat.zero_add, List.take_zero, List.nil_append] at htake
      rw [htake]
    have hr := hread []
    simp only [List.append_nil, List.nil_append] at hr
    simp only [List.nil_append, hset, read_candidates_map_some, hr, true_and]
    rfl
  · simp [Scratch.capacity, hlen]

theorem completion_result (reg : List console_cmd) (part : CStr) (rest : List CStr)
    (alloc_ok : Bool) (st : Scratch)
    (hwf : st.complsize ≤ st.capacity)
    (halloc : st.complsize < (matching_names reg part).length + 1 → alloc_ok = true) :
    ∃ st1 : Scratch, completion reg 1 (part :: rest) alloc_ok st =
      some (
        (if (matching_names reg part).length > 1 then
          match matching_names reg part with
          | [] => []
          | n :: ns => n.drop (strlen part) :: ns
        else matching_names reg part), st1) ∧
      st1.complsize ≤ st1.capacity := by
  have hcount : count_loop part (strlen part) reg 0 = (matching_names reg part).length := by
    rw [count_loop_eq]
    simp [matching_names]
  simp only [completion, if_true, hcount]
  by_cases hgrow : (matching_names reg part).length + 1 > st.complsize
  · rw [if_pos hgrow, halloc hgrow]
    obtain ⟨arr, harr, hlen⟩ := realloc_ok_length st.compl ((matching_names reg part).length + 1)
    rw [harr]
    obtain ⟨st1, h1, hsize, hcap⟩ := completion_fill_spec reg part
      { st with compl := some arr, complsize := (matching_names reg part).length + 1 }
      arr rfl (by omega)
    exact ⟨st1, h1, by rw [hsize, hcap, hlen]⟩
  · rw [if_neg hgrow]
    cases hc : st.compl with
    | none =>
      simp only [Scratch.capacity, hc] at hwf
      omega
    | some arr =>
      simp only [Scratch.capacity, hc] at hwf
      obtain ⟨st1, h1, hsize, hcap⟩ := completion_fill_spec reg part st arr hc (by omega)
      exact ⟨st1, h1, by rw [hsize, hcap]; exact hwf⟩

/-- C5, as stated, fails: with only `help` in the table, completing `he` gives
the single candidate `help`, not the suffix `lp`. -/
theorem completion_help_he_counterexample :
    (completion help_reg 1 [lit "he"] true Scratch.init).map Prod.fst = some [lit "help"] ∧
    ¬ ((completion help_reg 1 [lit "he"] true Scratch.init).map Prod.fst = some [lit "lp"]) := by
  decide

/-- C5, amended: with only `help` in the table, on a scratch state whose
recorded capacity does not exceed the real one and with the growth of the
candidate array succeeding when needed, `completion` with `argc = 1` and
`argv[0] = "he"` returns exactly one candidate, the full name `help`. -/
theorem completion_help_he_full_name (rest : List CStr) (alloc_ok : Bool) (st : Scratch)
    (hwf : st.complsize ≤ st.capacity)
    (halloc : st.complsize < 2 → alloc_ok = true) :
    ∃ st1 : Scratch,
      completion help_reg 1 (lit "he" :: rest) alloc_ok st = some ([lit "help"], st1) := by
  have hm : matching_names help_reg (lit "he") = [lit "help"] := by decide
  obtain ⟨st1, h1, _⟩ := completion_result help_reg (lit "he") rest alloc_ok st hwf
    (by rw [hm]; exact halloc)
  rw [hm] at h1
  exact ⟨st1, h1⟩

/-- Witness of the amended C5 on the fresh scratch state. -/
theorem completion_help_he_full_name_witness :
    Scratch.init.complsize ≤ Scratch.init.capacity ∧
    ∃ st1 : Scratch,
      completion help_reg 1 [lit "he"] true Scratch.init = some ([lit "help"], st1) :=
  ⟨by decide, completion_help_he_full_name [] true Scratch.init (by decide) (fun _ => rfl)⟩

/-- C6, as stated, fails: on the fresh scratch state a call with `argc = 1`
and no matching name needs one slot for the terminator; when that allocation
fails the result is the `noroom` list, which is not empty. -/
theorem completion_no_match_counterexample :
    matching_names compl_reg (lit "xyz") = [] ∧
    completion compl_reg 1 [lit "xyz"] false Scratch.init = some (noroom, Scratch.init) ∧
    noroom ≠ [] := by
  decide

/-- C6, amended: `completion` returns the empty list and leaves the scratch
state alone for every call with `argc ≠ 1`; for a call with `argc = 1`, on a
scratch state whose recorded capacity does not exceed the real one and with
the growth of the candidate array succeeding when needed, the result is empty
exactly when no entry has `argv[0]` as a prefix. -/
theorem completion_empty_result (reg : List console_cmd) (argc : Int) (argv : List CStr)
    (alloc_ok : Bool) (st : Scratch) :
    (argc ≠ 1 → completion reg argc argv alloc_ok st = some ([], st)) ∧
    (∀ (part : CStr) (rest : List CStr), argc = 1 → argv = part :: rest →
      st.complsize ≤ st.capacity →
      (st.complsize < (matching_names reg part).length + 1 → alloc_ok = true) →
      ∃ (r : List CStr) (st1 : Scratch),
        completion reg argc argv alloc_ok st = some (r, st1) ∧
        (r = [] ↔ matching_names reg part = [])) := by
  constructor
  · intro h
    simp [completion, h, nocompl]
  · intro part rest hargc hargv hwf halloc
    subst hargc hargv
    obtain ⟨st1, h1, _⟩ := completion_result reg part rest alloc_ok st hwf halloc
    refine ⟨_, st1, h1, ?_⟩
    cases hm : matching_names reg part with
    | nil => simp
    | cons n ns =>
      simp only [reduceCtorEq, iff_false]
      split <;> simp

/-- Witness of the amended C6: a call with `argc = 2`, and `xyz`, which no
name of the table starts with, on the fresh scratch state. -/
theorem completion_empty_result_witness :
    completion compl_reg 2 [lit "he", lit "a"] true Scratch.init = some ([], Scratch.init) ∧
    Scratch.init.complsize ≤ Scratch.init.capacity ∧
    ∃ (r : List CStr) (st1 : Scratch),
      completion compl_reg 1 [lit "xyz"] true Scratch.init = some (r, st1) ∧
      (r = [] ↔ matching_names compl_reg (lit "xyz") = []) :=
  ⟨(completion_empty_result compl_reg 2 [lit "he", lit "a"] true Scratch.init).1 (by decide),
   by decide,
   (completion_empty_result compl_reg 1 [lit "xyz"] true Scratch.init).2 (lit "xyz") [] rfl rfl
     (by decide) (fun _ => rfl)⟩

theorem completion_alloc_failure (reg : List console_cmd) (part : CStr) (rest : List CStr)
    (st : Scratch) (hgrow : st.complsize < (matching_names reg part).length + 1) :
    completion reg 1 (part :: rest) false st = some (noroom, { st with compl := none }) := by
  have hcount : count_loop part (strlen part) reg 0 = (matching_names reg part).length := by
    rw [count_loop_eq]
    simp [matching_names]
  have hg : (matching_names reg part).length + 1 > st.complsize := hgrow
  simp [completion, hcount, hg, realloc]

/-- C7 fails on the code: after `x` has been completed on `compl_reg`, the
array has two slots. Completing `he` then needs four; when the `realloc`
fails, the call returns `noroom` and keeps the buffer and the recorded capacity,
but the array pointer has been overwritten with null, so the scratch state has
changed. Completing `x` again then writes through the null pointer, while
without the failed call it returns `x`. -/
theorem completion_alloc_failure_divergence :
    completion compl_reg 1 [lit "x"] true Scratch.init = some ([lit "x"], scratch_after_x) ∧
    completion compl_reg 1 [lit "he"] false scratch_after_x =
      some (noroom, { scratch_after_x with compl := none }) ∧
    ({ scratch_after_x with compl := none } : Scratch) ≠ scratch_after_x ∧
    completion compl_reg 1 [lit "x"] true { scratch_after_x with compl := none } = none ∧
    completion compl_reg 1 [lit "x"] true scratch_after_x = some ([lit "x"], scratch_after_x) := by
  decide

/-! ## Escape gesture -/

theorem sub32_mod_left (a b : Nat) : sub32 (a % 2 ^ 32) b = sub32 a b := by
  unfold sub32
  rw [Nat.mod_mod]

theorem sub32_mod_right (a b : Nat) : sub32 a (b % 2 ^ 32) = sub32 a b := by
  unfold sub32
  rw [Nat.mod_mod]

/-- The state after an escape key that neither resets the counter nor ends
passthrough. -/
theorem press_count (cfg : Config) (s : Console) (now : Nat) (hpass : s.passthrough ≠ 0)
    (h : ¬ s.esc_count + 1 > 1 ∨
      (cfg.ESC_SPACE ≤ sub32 now s.esc_time ∧ s.esc_count + 1 ≠ cfg.ESC_COUNT)) :
    console_insert cfg s cfg.KEY_ESC now =
      { s with trace := s.trace ++ [Event.uart cfg.KEY_ESC]
               esc_count := s.esc_count + 1
               esc_time := now % 2 ^ 32 } := by
  rcases h with h | ⟨hgap, hne⟩
  · simp [console_insert, hpass, h]
  · have hg : ¬ sub32 now s.esc_time < cfg.ESC_SPACE := by omega
    simp only [console_insert, sub32_mod_left]
    by_cases h1 : s.esc_count + 1 > 1
    · simp [hpass, h1, hg, hne]
    · simp [hpass, h1]

/-- The state after an escape key that comes too early after the previous one. -/
theorem press_short (cfg : Config) (s : Console) (now : Nat) (hpass : s.passthrough ≠ 0)
    (h1 : s.esc_count + 1 > 1) (hgap : sub32 now s.esc_time < cfg.ESC_SPACE) :
    console_insert cfg s cfg.KEY_ESC now =
      { s with trace := s.trace ++ [Event.uart cfg.KEY_ESC]
               esc_count := 0
               esc_time := now % 2 ^ 32 } := by
  simp only [console_insert, sub32_mod_left]
  simp [hpass, h1, hgap]

/-- The state after the escape key that completes the gesture. -/
theorem press_toggle (cfg : Config) (s : Console) (now : Nat) (hpass : s.passthrough ≠ 0)
    (h1 : s.esc_count + 1 > 1) (hgap : cfg.ESC_SPACE ≤ sub32 now s.esc_time)
    (heq : s.esc_count + 1 = cfg.ESC_COUNT) :
    console_insert cfg s cfg.KEY_ESC now =
      { console_locked := 0
        passthrough := 0
        esc_time := now % 2 ^ 32
        esc_count := 0
        trace := s.trace ++ [Event.uart cfg.KEY_ESC, Event.prompt, Event.printf msg_serial] } := by
  have hg : ¬ sub32 now s.esc_time < cfg.ESC_SPACE := by omega
  simp only [console_insert, sub32_mod_left]
  have h2 : 1 < cfg.ESC_COUNT := by omega
  simp [hpass, h2, hg, heq, enable_passthrough, console_lock, console_printf]

theorem console_write_cons (cfg : Config) (s : Console) (t : Nat) (ts : List Nat) :
    console_write cfg s (esc_presses cfg (t :: ts)) =
      console_write cfg (console_insert cfg s cfg.KEY_ESC t) (esc_presses cfg ts) := rfl

theorem count_serial_uart (tr : List Event) (c : Char) :
    List.count (Event.printf msg_serial) (tr ++ [Event.uart c]) =
      List.count (Event.printf msg_serial) tr := by
  simp [List.count_append, List.count_cons]

theorem count_serial_toggle (tr : List Event) (c : Char) :
    List.count (Event.printf msg_serial)
        (tr ++ [Event.uart c, Event.prompt, Event.printf msg_serial]) =
      List.count (Event.printf msg_serial) tr + 1 := by
  simp [List.count_append, List.count_cons]

/-- From a counter of at least one, escape keys that are all far enough apart
and bring the counter to `ESC_COUNT` leave passthrough at the last key only. -/
theorem esc_run_toggles (cfg : Config) : ∀ (times : List Nat) (s : Console) (t0 : Nat),
    s.passthrough ≠ 0 → 1 ≤ s.esc_count → s.esc_time = t0 % 2 ^ 32 →
    s.esc_count + times.length = cfg.ESC_COUNT → times ≠ [] →
    List.Chain (fun a b => cfg.ESC_SPACE ≤ sub32 b a) t0 times →
    (∀ k, k < times.length →
      (console_write cfg s (esc_presses cfg (times.take k))).passthrough = s.passthrough) ∧
    (console_write cfg s (esc_presses cfg times)).passthrough = 0 ∧
    (console_write cfg s (esc_presses cfg times)).console_locked = 0 ∧
    (console_write cfg s (esc_presses cfg times)).esc_count = 0 ∧
    List.count (Event.printf msg_serial) (console_write cfg s (esc_presses cfg times)).trace =
      List.count (Event.printf msg_serial) s.trace + 1
  | [], _, _, _, _, _, _, hne, _ => absurd rfl hne
  | t :: ts, s, t0, hpass, hone, htime, hsum, _, hchain => by
    rw [List.chain_cons] at hchain
    obtain ⟨hgap0, hrest⟩ := hchain
    have hgap : cfg.ESC_SPACE ≤ sub32 t s.esc_time := by
      rw [htime, sub32_mod_right]; exact hgap0
    have h1 : s.esc_count + 1 > 1 := by omega
    cases ts with
    | nil =>
      have heq : s.esc_count + 1 = cfg.ESC_COUNT := by
        simpa using hsum
      have hw : console_write cfg s (esc_presses cfg [t]) =
          console_insert cfg s cfg.KEY_ESC t := rfl
      rw [hw, press_toggle cfg s t hpass h1 hgap heq]
      refine ⟨?_, rfl, rfl, rfl, count_serial_toggle _ _⟩
      intro k hk
      have hk0 : k = 0 := by simpa using hk
      subst hk0
      rfl
    | cons t2 ts2 =>
      have hne : s.esc_count + 1 ≠ cfg.ESC_COUNT := by
        simp only [List.length_cons] at hsum
        push_cast at hsum
        omega
      have hstep := press_count cfg s t hpass (Or.inr ⟨hgap, hne⟩)
      have ih := esc_run_toggles cfg (t2 :: ts2) (console_insert cfg s cfg.KEY_ESC t) t
        (by rw [hstep]; exact hpass) (by rw [hstep]; show 1 ≤ s.esc_count + 1; omega)
        (by rw [hstep]) (by
          rw [hstep]
          simp only [List.length_cons] at hsum ⊢
          push_cast at hsum ⊢
          omega)
        (by simp) hrest
      obtain ⟨ihk, ihp, ihl, ihc, iht⟩ := ih
      have hp1 : (console_insert cfg s cfg.KEY_ESC t).passthrough = s.passthrough := by
        rw [hstep]
      have ht1 : List.count (Event.printf msg_serial) (console_insert cfg s cfg.KEY_ESC t).trace
          = List.count (Event.printf msg_serial) s.trace := by
        rw [hstep]; exact count_serial_uart _ _
      rw [console_write_cons]
      refine ⟨?_, ihp, ihl, ihc, by rw [iht, ht1]⟩
      intro k hk
      cases k with
      | zero => rfl
      | succ k =>
        rw [List.take_succ_cons, console_write_cons, ihk k (by simpa using hk), hp1]

/-- C8: from passthrough with `esc_count = 0`, when `ESC_COUNT >= 2` escape
keys arrive with every gap between consecutive keys, taken in 32-bit unsigned
arithmetic, at least `ESC_SPACE`, passthrough stays as it was after each of the
keys but the last, and after the last key passthrough is off, the console is
unlocked, `esc_count` is 0 and the confirmation message has been printed
once. -/
theorem escape_gesture_succeeds (cfg : Config) (s : Console) (times : List Nat)
    (hpass : s.passthrough ≠ 0) (hcount : s.esc_count = 0)
    (hn : 2 ≤ times.length) (hN : cfg.ESC_COUNT = times.length)
    (hgaps : List.Chain' (fun a b => cfg.ESC_SPACE ≤ sub32 b a) times) :
    (∀ k, k < times.length →
      (console_write cfg s (esc_presses cfg (times.take k))).passthrough = s.passthrough) ∧
    (console_write cfg s (esc_presses cfg times)).passthrough = 0 ∧
    (console_write cfg s (esc_presses cfg times)).console_locked = 0 ∧
    (console_write cfg s (esc_presses cfg times)).esc_count = 0 ∧
    List.count (Event.printf msg_serial) (console_write cfg s (esc_presses cfg times)).trace =
      List.count (Event.printf msg_serial) s.trace + 1 := by
  cases times with
  | nil => simp at hn
  | cons t ts =>
    have hstep := press_count cfg s t hpass (Or.inl (by omega))
    have hts : ts ≠ [] := by
      intro h; subst h; simp at hn
    have ih := esc_run_toggles cfg ts (console_insert cfg s cfg.KEY_ESC t) t
      (by rw [hstep]; exact hpass) (by rw [hstep]; show 1 ≤ s.esc_count + 1; omega)
      (by rw [hstep]) (by
        rw [hstep, hN]
        show s.esc_count + 1 + _ = _
        simp only [List.length_cons]
        push_cast
        omega)
      hts hgaps
    obtain ⟨ihk, ihp, ihl, ihc, iht⟩ := ih
    have hp1 : (console_insert cfg s cfg.KEY_ESC t).passthrough = s.passthrough := by
      rw [hstep]
    have ht1 : List.count (Event.printf msg_serial) (console_insert cfg s cfg.KEY_ESC t).trace
        = List.count (Event.printf msg_serial) s.trace := by
      rw [hstep]; exact count_serial_uart _ _
    rw [console_write_cons]
    refine ⟨?_, ihp, ihl, ihc, by rw [iht, ht1]⟩
    intro k hk
    cases k with
    | zero => rfl
    | succ k =>
      rw [List.take_succ_cons, console_write_cons, ihk k (by simpa using hk), hp1]

/-- Witness of C8: three escape keys one second apart, the last one after the
32-bit clock has wrapped. -/
theorem escape_gesture_succeeds_witness :
    console_passthrough.passthrough ≠ 0 ∧ console_passthrough.esc_count = 0 ∧
    List.Chain' (fun a b => sample_cfg.ESC_SPACE ≤ sub32 b a)
      [4293500000, 4294500000, 532704] ∧
    (console_write sample_cfg console_passthrough
      (esc_presses sample_cfg [4293500000, 4294500000])).passthrough = 1 ∧
    console_write sample_cfg console_passthrough
        (esc_presses sample_cfg [4293500000, 4294500000, 532704]) =
      { console_locked := 0, passthrough := 0, esc_time := 532704, esc_count := 0
        trace := [Event.uart (Char.ofNat 27), Event.uart (Char.ofNat 27),
          Event.uart (Char.ofNat 27), Event.prompt, Event.printf msg_serial] } ∧
    List.count (Event.printf msg_serial)
      (console_write sample_cfg console_passthrough
        (esc_presses sample_cfg [4293500000, 4294500000, 532704])).trace = 1 :=
  have hgaps : List.Chain' (fun a b => sample_cfg.ESC_SPACE ≤ sub32 b a)
      [4293500000, 4294500000, 532704] :=
    List.Chain.cons (by decide) (List.Chain.cons (by decide) List.Chain.nil)
  have h := escape_gesture_succeeds sample_cfg console_passthrough
    [4293500000, 4294500000, 532704] (by decide) rfl (by decide) rfl hgaps
  ⟨by decide, rfl, hgaps, h.1 2 (by decide), by decide, h.2.2.2.2⟩

/-- An escape key at which the counter does not reach `ESC_COUNT` changes only
the counter, the time stamp and the diagnostic trace. -/
theorem press_no_toggle (cfg : Config) (s : Console) (now : Nat) (hpass : s.passthrough ≠ 0)
    (hne : s.esc_count + 1 ≠ cfg.ESC_COUNT) :
    ∃ c : Int, (c = 0 ∨ c = s.esc_count + 1) ∧
      console_insert cfg s cfg.KEY_ESC now =
        { s with trace := s.trace ++ [Event.uart cfg.KEY_ESC]
                 esc_count := c
                 esc_time := now % 2 ^ 32 } := by
  by_cases h1 : s.esc_count + 1 > 1
  · by_cases hgap : sub32 now s.esc_time < cfg.ESC_SPACE
    · exact ⟨0, Or.inl rfl, press_short cfg s now hpass h1 hgap⟩
    · exact ⟨_, Or.inr rfl, press_count cfg s now hpass (Or.inr ⟨by omega, hne⟩)⟩
  · exact ⟨_, Or.inr rfl, press_count cfg s now hpass (Or.inl h1)⟩

/-- Escape keys too few to bring the counter to `ESC_COUNT` do not end
passthrough. -/
theorem esc_run_below (cfg : Config) : ∀ (times : List Nat) (s : Console),
    s.passthrough ≠ 0 → 0 ≤ s.esc_count →
    s.esc_count + times.length < cfg.ESC_COUNT →
    (console_write cfg s (esc_presses cfg times)).passthrough = s.passthrough ∧
    (console_write cfg s (esc_presses cfg times)).console_locked = s.console_locked ∧
    List.count (Event.printf msg_serial) (console_write cfg s (esc_presses cfg times)).trace =
      List.count (Event.printf msg_serial) s.trace
  | [], _, _, _, _ => ⟨rfl, rfl, rfl⟩
  | t :: ts, s, hpass, hnn, hlt => by
    simp only [List.length_cons] at hlt
    push_cast at hlt
    obtain ⟨c, hc, hstep⟩ := press_no_toggle cfg s t hpass (by omega)
    have ih := esc_run_below cfg ts (console_insert cfg s cfg.KEY_ESC t)
      (by rw [hstep]; exact hpass)
      (by rw [hstep]; show 0 ≤ c; rcases hc with h | h <;> omega)
      (by rw [hstep]; show c + _ < _; rcases hc with h | h <;> omega)
    rw [console_write_cons]
    obtain ⟨ihp, ihl, iht⟩ := ih
    refine ⟨?_, ?_, ?_⟩
    · rw [ihp, hstep]
    · rw [ihl, hstep]
    · rw [iht, hstep]; exact count_serial_uart _ _

/-- From a counter of at least one, escape keys that would bring the counter
to `ESC_COUNT` but have a short gap among them do not end passthrough. -/
theorem esc_run_broken (cfg : Config) : ∀ (times : List Nat) (s : Console) (t0 : Nat),
    s.passthrough ≠ 0 → 1 ≤ s.esc_count → s.esc_time = t0 % 2 ^ 32 →
    s.esc_count + times.length = cfg.ESC_COUNT →
    (∃ (pre : List Nat) (a b : Nat) (post : List Nat),
      t0 :: times = pre ++ a :: b :: post ∧ sub32 b a < cfg.ESC_SPACE) →
    ∀ k : Nat,
      (console_write cfg s (esc_presses cfg (times.take k))).passthrough = s.passthrough ∧
      (console_write cfg s (esc_presses cfg (times.take k))).console_locked
        = s.console_locked ∧
      List.count (Event.printf msg_serial)
          (console_write cfg s (esc_presses cfg (times.take k))).trace =
        List.count (Event.printf msg_serial) s.trace
  | [], _, _, _, _, _, _, _, k => by
    rw [List.take_nil]
    exact ⟨rfl, rfl, rfl⟩
  | t :: ts, s, t0, hpass, hone, htime, hsum, hshort, k => by
    cases k with
    | zero => exact ⟨rfl, rfl, rfl⟩
    | succ k =>
      simp only [List.length_cons] at hsum
      push_cast at hsum
      rw [List.take_succ_cons, console_write_cons]
      have h1 : s.esc_count + 1 > 1 := by omega
      by_cases hgap : sub32 t s.esc_time < cfg.ESC_SPACE
      · have hstep := press_short cfg s t hpass h1 hgap
        have hlen : (ts.take k).length ≤ ts.length := by
          rw [List.length_take]; omega
        have ih := esc_run_below cfg (ts.take k) (console_insert cfg s cfg.KEY_ESC t)
          (by rw [hstep]; exact hpass) (by rw [hstep])
          (by
            rw [hstep]
            show (0 : Int) + _ < _
            have : ((ts.take k).length : Int) ≤ ts.length := by exact_mod_cast hlen
            omega)
        obtain ⟨ihp, ihl, iht⟩ := ih
        refine ⟨?_, ?_, ?_⟩
        · rw [ihp, hstep]
        · rw [ihl, hstep]
        · rw [iht, hstep]; exact count_serial_uart _ _
      · obtain ⟨pre, a, b, post, hsplit, hab⟩ := hshort
        have hshort1 : ∃ (pre1 : List Nat) (a1 b1 : Nat) (post1 : List Nat),
            t :: ts = pre1 ++ a1 :: b1 :: post1 ∧ sub32 b1 a1 < cfg.ESC_SPACE := by
          cases pre with
          | nil =>
            simp only [List.nil_append, List.cons.injEq] at hsplit
            obtain ⟨h0, h1, _⟩ := hsplit
            subst h0 h1
            rw [htime, sub32_mod_right] at hgap
            exact absurd hab hgap
          | cons p pre1 =>
            simp only [List.cons_append, List.cons.injEq] at hsplit
            exact ⟨pre1, a, b, post, hsplit.2, hab⟩
        have hts : 1 ≤ ts.length := by
          obtain ⟨pre1, a1, b1, post1, h, _⟩ := hshort1
          have := congrArg List.length h
          simp only [List.length_cons, List.length_append] at this
          omega
        have hstep := press_count cfg s t hpass (Or.inr ⟨by omega, by omega⟩)
        have ih := esc_run_broken cfg ts (console_insert cfg s cfg.KEY_ESC t) t
          (by rw [hstep]; exact hpass) (by rw [hstep]; show 1 ≤ s.esc_count + 1; omega)
          (by rw [hstep]) (by rw [hstep]; show s.esc_count + 1 + _ = _; omega) hshort1 k
        obtain ⟨ihp, ihl, iht⟩ := ih
        refine ⟨?_, ?_, ?_⟩
        · rw [ihp, hstep]
        · rw [ihl, hstep]
        · rw [iht, hstep]; exact count_serial_uart _ _

/-- C9: from passthrough with `esc_count = 0`, when exactly `ESC_COUNT` escape
keys arrive and some gap between two consecutive keys, taken in 32-bit
unsigned arithmetic, is below `ESC_SPACE`, then after each of the keys
passthrough and the lock are what they were and no confirmation message has
been printed. -/
theorem escape_gesture_broken (cfg : Config) (s : Console) (times : List Nat)
    (hpass : s.passthrough ≠ 0) (hcount : s.esc_count = 0)
    (hN : cfg.ESC_COUNT = times.length)
    (hshort : ∃ (pre : List Nat) (a b : Nat) (post : List Nat),
      times = pre ++ a :: b :: post ∧ sub32 b a < cfg.ESC_SPACE) :
    ∀ k : Nat, k ≤ times.length →
      (console_write cfg s (esc_presses cfg (times.take k))).passthrough = s.passthrough ∧
      (console_write cfg s (esc_presses cfg (times.take k))).console_locked
        = s.console_locked ∧
      List.count (Event.printf msg_serial)
          (console_write cfg s (esc_presses cfg (times.take k))).trace =
        List.count (Event.printf msg_serial) s.trace := by
  intro k _
  cases times with
  | nil =>
    rw [List.take_nil]
    exact ⟨rfl, rfl, rfl⟩
  | cons t ts =>
    cases k with
    | zero => exact ⟨rfl, rfl, rfl⟩
    | succ k =>
      rw [List.take_succ_cons, console_write_cons]
      have hstep := press_count cfg s t hpass (Or.inl (by omega))
      have ih := esc_run_broken cfg ts (console_insert cfg s cfg.KEY_ESC t) t
        (by rw [hstep]; exact hpass) (by rw [hstep]; show 1 ≤ s.esc_count + 1; omega)
        (by rw [hstep])
        (by
          rw [hstep, hN]
          show s.esc_count + 1 + _ = _
          simp only [List.length_cons]
          push_cast
          omega)
        hshort k
      obtain ⟨ihp, ihl, iht⟩ := ih
      refine ⟨?_, ?_, ?_⟩
      · rw [ihp, hstep]
      · rw [ihl, hstep]
      · rw [iht, hstep]; exact count_serial_uart _ _

/-- Witness of C9: three escape keys, the third only a tenth of a second after
the second. -/
theorem escape_gesture_broken_witness :
    console_passthrough.passthrough ≠ 0 ∧ console_passthrough.esc_count = 0 ∧
    sub32 2100000 2000000 < sample_cfg.ESC_SPACE ∧
    (console_write sample_cfg console_passthrough
      (esc_presses sample_cfg [1000000, 2000000, 2100000])).passthrough = 1 ∧
    List.count (Event.printf msg_serial)
      (console_write sample_cfg console_passthrough
        (esc_presses sample_cfg [1000000, 2000000, 2100000])).trace = 0 :=
  have h := escape_gesture_broken sample_cfg console_passthrough [1000000, 2000000, 2100000]
    (by decide) rfl rfl ⟨[1000000], 2000000, 2100000, [], rfl, by decide⟩ 3 (by decide)
  ⟨by decide, rfl, by decide, h.1, h.2.2⟩

theorem insert_other (cfg : Config) (s : Console) (c : Char) (now : Nat)
    (hpass : s.passthrough ≠ 0) (hc : c ≠ cfg.KEY_ESC) :
    console_insert cfg s c now =
      { s with trace := s.trace ++ [Event.uart c], esc_count := 0 } := by
  simp [console_insert, hpass, hc]

/-- C10: in passthrough, `console_insert(c)` turns passthrough off only when
`c` is the escape key, the incremented counter is above 1 and equal to
`ESC_COUNT`, and the gap to the previous escape key is at least `ESC_SPACE`;
the console is then unlocked as well, and these conditions do turn passthrough
off. When passthrough is not turned off, the passthrough flag and the lock are
what they were. -/
theorem passthrough_exit_only_by_escape (cfg : Config) (s : Console) (c : Char) (now : Nat)
    (hpass : s.passthrough ≠ 0) :
    ((console_insert cfg s c now).passthrough = 0 →
      c = cfg.KEY_ESC ∧ s.esc_count + 1 > 1 ∧ s.esc_count + 1 = cfg.ESC_COUNT ∧
      cfg.ESC_SPACE ≤ sub32 now s.esc_time ∧
      (console_insert cfg s c now).console_locked = 0) ∧
    ((console_insert cfg s c now).passthrough ≠ 0 →
      (console_insert cfg s c now).passthrough = s.passthrough ∧
      (console_insert cfg s c now).console_locked = s.console_locked) ∧
    (c = cfg.KEY_ESC ∧ s.esc_count + 1 > 1 ∧ s.esc_count + 1 = cfg.ESC_COUNT ∧
      cfg.ESC_SPACE ≤ sub32 now s.esc_time →
      (console_insert cfg s c now).passthrough = 0) := by
  by_cases hc : c = cfg.KEY_ESC
  · subst hc
    by_cases hcond : s.esc_count + 1 > 1 ∧ s.esc_count + 1 = cfg.ESC_COUNT ∧
        cfg.ESC_SPACE ≤ sub32 now s.esc_time
    · obtain ⟨h1, heq, hgap⟩ := hcond
      rw [press_toggle cfg s now hpass h1 hgap heq]
      exact ⟨fun _ => ⟨rfl, h1, heq, hgap, rfl⟩, fun h => absurd rfl h, fun _ => rfl⟩
    · have hkeep : (console_insert cfg s cfg.KEY_ESC now).passthrough = s.passthrough ∧
          (console_insert cfg s cfg.KEY_ESC now).console_locked = s.console_locked := by
        by_cases h1 : s.esc_count + 1 > 1
        · by_cases hgap : sub32 now s.esc_time < cfg.ESC_SPACE
          · rw [press_short cfg s now hpass h1 hgap]
            exact ⟨rfl, rfl⟩
          · have hne : s.esc_count + 1 ≠ cfg.ESC_COUNT := fun heq =>
              hcond ⟨h1, heq, by omega⟩
            rw [press_count cfg s now hpass (Or.inr ⟨by omega, hne⟩)]
            exact ⟨rfl, rfl⟩
        · rw [press_count cfg s now hpass (Or.inl h1)]
          exact ⟨rfl, rfl⟩
      refine ⟨fun h => ?_, fun _ => hkeep, fun h => absurd h.2 hcond⟩
      rw [hkeep.1] at h
      exact absurd h hpass
  · rw [insert_other cfg s c now hpass hc]
    exact ⟨fun h => absurd h hpass, fun _ => ⟨rfl, rfl⟩, fun h => absurd h.1 hc⟩

/-- Witness of C10: the third escape key one second after the second ends
passthrough and unlocks; the letter `a` changes neither. -/
theorem passthrough_exit_only_by_escape_witness :
    console_two_escapes.passthrough ≠ 0 ∧
    (console_insert sample_cfg console_two_escapes sample_cfg.KEY_ESC 3000000).passthrough = 0 ∧
    (console_insert sample_cfg console_two_escapes sample_cfg.KEY_ESC 3000000).console_locked
      = 0 ∧
    (console_insert sample_cfg console_two_escapes 'a' 3000000).passthrough = 1 ∧
    (console_insert sample_cfg console_two_escapes 'a' 3000000).console_locked = 1 :=
  have h1 := passthrough_exit_only_by_escape sample_cfg console_two_escapes
    sample_cfg.KEY_ESC 3000000 (by decide)
  have h2 := passthrough_exit_only_by_escape sample_cfg console_two_escapes 'a' 3000000
    (by decide)
  have hoff := h1.2.2 ⟨rfl, by decide, by decide, by decide⟩
  ⟨by decide, hoff, (h1.1 hoff).2.2.2.2, (h2.2.1 (by decide)).1, (h2.2.1 (by decide)).2⟩

/-! ## Lock gate -/

/-- C11: outside passthrough, `console_insert(c)` hands `c` to the line editor
exactly when the console is unlocked or `c` is `KEY_ETX`, and does nothing else;
on a locked console every other character leaves the whole state, trace
included, as it was. -/
theorem lock_gate_on_input (cfg : Config) (s : Console) (c : Char) (now : Nat)
    (hpass : s.passthrough = 0) :
    (s.console_locked = 0 ∨ c = cfg.KEY_ETX →
      console_insert cfg s c now = { s with trace := s.trace ++ [Event.insert_char c] }) ∧
    (s.console_locked ≠ 0 → c ≠ cfg.KEY_ETX → console_insert cfg s c now = s) ∧
    ((console_insert cfg s c now).trace = s.trace ++ [Event.insert_char c] ↔
      (s.console_locked = 0 ∨ c = cfg.KEY_ETX)) := by
  have hfwd : s.console_locked = 0 ∨ c = cfg.KEY_ETX →
      console_insert cfg s c now = { s with trace := s.trace ++ [Event.insert_char c] } := by
    intro h
    simp only [console_insert, hpass, ne_eq, not_true_eq_false, if_false, if_pos h]
  have hdrop : s.console_locked ≠ 0 → c ≠ cfg.KEY_ETX → console_insert cfg s c now = s := by
    intro hl hc
    have h : ¬ (s.console_locked = 0 ∨ c = cfg.KEY_ETX) := fun h => h.elim hl hc
    simp only [console_insert, hpass, ne_eq, not_true_eq_false, if_false, if_neg h]
  refine ⟨hfwd, hdrop, ⟨fun h => ?_, fun h => by rw [hfwd h]⟩⟩
  by_contra hcond
  have hl : s.console_locked ≠ 0 := fun h0 => hcond (Or.inl h0)
  have hc : c ≠ cfg.KEY_ETX := fun h0 => hcond (Or.inr h0)
  rw [hdrop hl hc] at h
  have := congrArg List.length h
  simp at this

/-- Witness of C11: on a locked console the letter `a` is dropped and the unlock
character is handed to the line editor. -/
theorem lock_gate_on_input_witness :
    console_locked1.passthrough = 0 ∧
    console_insert sample_cfg console_locked1 'a' 0 = console_locked1 ∧
    console_insert sample_cfg console_locked1 sample_cfg.KEY_ETX 0 =
      { console_locked1 with trace := [Event.insert_char sample_cfg.KEY_ETX] } :=
  ⟨rfl,
   (lock_gate_on_input sample_cfg console_locked1 'a' 0 rfl).2.1 (by decide) (by decide),
   (lock_gate_on_input sample_cfg console_locked1 sample_cfg.KEY_ETX 0 rfl).1 (Or.inr rfl)⟩

/-- C12: after `enable_passthrough(v)` the passthrough flag and the lock flag
both equal `v`; `console_lock(l)` sets the lock flag to `l`; either call asks
for a prompt redraw, as its last action, exactly when its argument is 0, and
emits nothing else. -/
theorem passthrough_lock_coupled (s : Console) (v l : Int) :
    (enable_passthrough s v).passthrough = v ∧
    (enable_passthrough s v).console_locked = v ∧
    (enable_passthrough s v).trace = s.trace ++ (if v = 0 then [Event.prompt] else []) ∧
    (console_lock s l).console_locked = l ∧
    (console_lock s l).passthrough = s.passthrough ∧
    (console_lock s l).trace = s.trace ++ (if l = 0 then [Event.prompt] else []) := by
  by_cases hv : v = 0 <;> by_cases hl : l = 0 <;>
    simp [enable_passthrough, console_lock, hv, hl]

/-! ## Interrupt -/

theorem foldl_interrupt : ∀ (reg : List console_cmd) (s : Console),
    reg.foldl
        (fun t cmd => match cmd.interrupt with
          | some f => f t
          | none => t) s =
      (reg.filterMap (fun cmd => cmd.interrupt)).foldl (fun t f => f t) s
  | [], _ => rfl
  | cmd :: cmds, s => by
    cases h : cmd.interrupt with
    | none => simp only [List.foldl_cons, h, List.filterMap_cons, foldl_interrupt cmds]
    | some f => simp only [List.foldl_cons, h, List.filterMap_cons, foldl_interrupt cmds]

/-- C15: `sigint` prints the interrupt notice, then runs the interrupt
callbacks of the entries that have one, each once and in table order, and last
sets the lock flag to 0 and asks for a prompt redraw: the lock is open after
the call whatever it was before and whatever the callbacks did. -/
theorem sigint_runs_callbacks_and_unlocks (reg : List console_cmd) (s : Console) :
    sigint reg s =
      { (reg.filterMap (fun cmd => cmd.interrupt)).foldl (fun t f => f t)
          (console_printf s "\nINTERRUPT\n".toList) with
        console_locked := 0
        trace := ((reg.filterMap (fun cmd => cmd.interrupt)).foldl (fun t f => f t)
          (console_printf s "\nINTERRUPT\n".toList)).trace ++ [Event.prompt] } ∧
    (sigint reg s).console_locked = 0 := by
  have h : sigint reg s =
      { (reg.filterMap (fun cmd => cmd.interrupt)).foldl (fun t f => f t)
          (console_printf s "\nINTERRUPT\n".toList) with
        console_locked := 0
        trace := ((reg.filterMap (fun cmd => cmd.interrupt)).foldl (fun t f => f t)
          (console_printf s "\nINTERRUPT\n".toList)).trace ++ [Event.prompt] } := by
    simp only [sigint, foldl_interrupt, console_lock, if_true]
  exact ⟨h, by rw [h]⟩

/-! ## Name collisions -/

theorem find_first_match (a0 : CStr) (e : console_cmd) (post : List console_cmd)
    (he : e.name = a0) : ∀ pre : List console_cmd, (∀ cmd ∈ pre, cmd.name ≠ a0) →
      (pre ++ e :: post).find? (fun cmd => decide (cmd.name = a0)) = some e
  | [], _ => by simp [List.find?, he]
  | p :: pre, h => by
    have hp : p.name ≠ a0 := h p (List.mem_cons_self _ _)
    simp only [List.cons_append, List.find?, hp, decide_False]
    exact find_first_match a0 e post he pre (fun c hc => h c (List.mem_cons_of_mem _ hc))

/-- C17: when `e` is the earliest entry named `argv[0]`, the result of
`execute` is decided by `e` alone, whatever entries follow it, same-named ones
included: when `e` fails an argument-count check, `execute` returns 1 after the
newline and one message, and no handler has run. -/
theorem execute_first_match_wins (pre post : List console_cmd) (e : console_cmd)
    (argc : Int) (a0 : CStr) (rest : List CStr) (s : Console)
    (hpre : ∀ cmd ∈ pre, cmd.name ≠ a0) (he : e.name = a0) :
    execute (pre ++ e :: post) argc (a0 :: rest) s = execute (pre ++ [e]) argc (a0 :: rest) s ∧
    ((e.required_args ≠ -1 ∧ argc < e.required_args) ∨
        (e.maximum_args ≠ -1 ∧ argc > e.maximum_args) →
      ∃ text : List Char, execute (pre ++ e :: post) argc (a0 :: rest) s =
        some (1, { s with trace := s.trace ++ [Event.printf "\n".toList, Event.printf text] })) := by
  have h1 := find_first_match a0 e post he pre hpre
  have h2 := find_first_match a0 e [] he pre hpre
  constructor
  · simp only [execute, execute_loop_found argc _ a0 _ e _ h1,
      execute_loop_found argc _ a0 _ e _ h2]
  · intro hfail
    simp only [execute, execute_loop_found argc _ a0 _ e _ h1]
    by_cases hreq : e.required_args ≠ -1 ∧ argc < e.required_args
    · exact ⟨msg_more_args a0 e.required_args argc, by simp [if_pos hreq, console_printf]⟩
    · have hmax : e.maximum_args ≠ -1 ∧ argc > e.maximum_args := hfail.resolve_left hreq
      exact ⟨msg_too_many_args a0 e.maximum_args argc,
        by simp [if_neg hreq, if_pos hmax, console_printf]⟩

/-- Witness of C17: `cmd` is registered twice; with `argc = 1` the earlier
entry asks for two arguments and the later one, which would accept the call and
print `later`, is not run. -/
theorem execute_first_match_wins_witness :
    dup_reg = [sample_cmd "help" (-1) (-1)] ++ sample_cmd "cmd" 2 2 ::
      [{ name := lit "cmd", handler := sample_handler "later" 0, help := lit "sample",
         required_args := -1, maximum_args := -1, interrupt := none }] ∧
    execute dup_reg 1 [lit "cmd"] console0 =
      execute ([sample_cmd "help" (-1) (-1)] ++ [sample_cmd "cmd" 2 2]) 1 [lit "cmd"] console0 ∧
    execute dup_reg 1 [lit "cmd"] console0 =
      some (1, { console0 with trace :=
        [Event.printf "\n".toList,
         Event.printf "\nCommand cmd requires at least 2 args, 1 given\n".toList] }) :=
  ⟨rfl,
   (execute_first_match_wins [sample_cmd "help" (-1) (-1)] _ (sample_cmd "cmd" 2 2) 1
      (lit "cmd") [] console0 (by decide) rfl).1,
   by decide⟩

/-! ## Characters other than escape in passthrough -/

/-- C18: in passthrough a character other than `KEY_ESC` sets `esc_count` to 0
and leaves `esc_time`, the passthrough flag and the lock flag as they were; the
only event of the call is the diagnostic mirror of the character, so nothing is
printed on the console and nothing reaches the line editor. -/
theorem non_escape_resets_counter (cfg : Config) (s : Console) (c : Char) (now : Nat)
    (hpass : s.passthrough ≠ 0) (hc : c ≠ cfg.KEY_ESC) :
    (console_insert cfg s c now).esc_count = 0 ∧
    (console_insert cfg s c now).esc_time = s.esc_time ∧
    (console_insert cfg s c now).passthrough = s.passthrough ∧
    (console_insert cfg s c now).console_locked = s.console_locked ∧
    (console_insert cfg s c now).trace = s.trace ++ [Event.uart c] := by
  rw [insert_other cfg s c now hpass hc]
  exact ⟨rfl, rfl, rfl, rfl, rfl⟩

/-- Witness of C18: the letter `a` after two counted escape keys. -/
theorem non_escape_resets_counter_witness :
    console_two_escapes.passthrough ≠ 0 ∧ 'a' ≠ sample_cfg.KEY_ESC ∧
    (console_insert sample_cfg console_two_escapes 'a' 3000000).esc_count = 0 ∧
    (console_insert sample_cfg console_two_escapes 'a' 3000000).esc_time = 2000000 ∧
    (console_insert sample_cfg console_two_escapes 'a' 3000000).trace = [Event.uart 'a'] :=
  have h := non_escape_resets_counter sample_cfg console_two_escapes 'a' 3000000
    (by decide) (by decide)
  ⟨by decide, by decide, h.1, h.2.1, h.2.2.2.2⟩

/-! ## Help -/

theorem newline_toList : "\n".toList = [NL] := by decide

theorem foldl_help_lines : ∀ (rows : List (CStr × CStr)) (t : Console),
    rows.foldl
        (fun t r => console_printf t
          (r.1.chars ++ List.replicate (10 - r.1.chars.length) ' ' ++ " - ".toList
            ++ r.2.chars ++ "\n".toList)) t =
      { t with trace := t.trace ++ rows.map (fun r => Event.printf (help_body r ++ [NL])) }
  | [], t => by simp
  | r :: rows, t => by
    rw [List.foldl_cons, foldl_help_lines rows]
    simp [console_printf, help_body, newline_toList, NL]

theorem do_help_eq (rows : List (CStr × CStr)) (argc : Int) (argv : List CStr) (s : Console) :
    do_help rows argc argv s =
      (0, { s with trace := s.trace ++
        Event.printf [NL] :: rows.map (fun r => Event.printf (help_body r ++ [NL])) }) := by
  unfold do_help
  rw [foldl_help_lines, newline_toList]
  simp [console_printf]

theorem execute_help_first (rows : List (CStr × CStr)) (others : List console_cmd)
    (argc : Int) (argv : List CStr) (s : Console) :
    execute (cmd_first rows :: others) argc (lit "help" :: argv) s =
      some (0, (do_help rows argc (lit "help" :: argv) (console_printf s "\n".toList)).2) := by
  have h0 : strcmp (cmd_first rows).name (lit "help") = 0 := (strcmp_eq_zero_iff _ _).2 rfl
  simp only [execute, execute_loop, h0, if_true]
  simp [cmd_first]

theorem name_infix_help_body (r : CStr × CStr) : r.1.chars <:+: help_body r ++ [NL] :=
  ⟨[], List.replicate (10 - r.1.chars.length) ' ' ++ " - ".toList ++ r.2.chars ++ [NL],
    by simp [help_body]⟩

/-- C13: on a table whose first entry is the built-in `help` entry, listing
that same table, `execute` with `argv[0] = "help"` and any `argc` returns 0,
its final state is the one the built-in handler `do_help` leaves, and what it
prints is two newlines followed by one text for each entry, in which the name
of the entry occurs. -/
theorem execute_help_lists_all (reg others : List console_cmd) (argc : Int)
    (argv : List CStr) (s : Console)
    (hreg : reg = cmd_first (table_rows reg) :: others) :
    execute reg argc (lit "help" :: argv) s =
      some (0, (do_help (table_rows reg) argc (lit "help" :: argv)
        (console_printf s "\n".toList)).2) ∧
    execute reg argc (lit "help" :: argv) s =
      some (0, { s with trace := s.trace ++
        (Event.printf [NL] :: Event.printf [NL] ::
          reg.map (fun cmd => Event.printf (help_body (cmd.name, cmd.help) ++ [NL]))) }) ∧
    ∀ cmd ∈ reg, ∃ text : List Char,
      Event.printf text ∈ (Event.printf [NL] :: Event.printf [NL] ::
        reg.map (fun cmd => Event.printf (help_body (cmd.name, cmd.help) ++ [NL]))) ∧
      cmd.name.chars <:+: text := by
  have h := execute_help_first (table_rows reg) others argc argv s
  rw [← hreg] at h
  refine ⟨h, ?_, ?_⟩
  · rw [h, do_help_eq]
    simp [console_printf, newline_toList, table_rows, List.map_map, Function.comp_def, NL]
  · intro cmd hcmd
    refine ⟨help_body (cmd.name, cmd.help) ++ [NL], ?_, name_infix_help_body (cmd.name, cmd.help)⟩
    apply List.mem_cons_of_mem
    apply List.mem_cons_of_mem
    exact List.mem_map.2 ⟨cmd, hcmd, rfl⟩

/-- Witness of C13: `help` with an extra argument on a table of three entries. -/
theorem execute_help_lists_all_witness :
    full_reg = cmd_first (table_rows full_reg) :: [sample_cmd "cmd" 2 2, sample_cmd "reboot" 1 1] ∧
    execute full_reg 2 [lit "help", lit "me"] console0 =
      some (0, { console0 with trace :=
        [Event.printf "\n".toList, Event.printf "\n".toList,
         Event.printf "help       - Show this message\n".toList,
         Event.printf "cmd        - sample\n".toList,
         Event.printf "reboot     - sample\n".toList] }) :=
  ⟨rfl,
   (execute_help_lists_all full_reg [sample_cmd "cmd" 2 2, sample_cmd "reboot" 1 1] 2
     [lit "me"] console0 rfl).2.1.trans (by decide)⟩

theorem split_lines_append : ∀ (l rest : List Char), NL ∉ l →
    split_lines (l ++ NL :: rest) = l :: split_lines rest
  | [], rest, _ => by simp [split_lines]
  | c :: l, rest, h => by
    have hc : c ≠ NL := fun h1 => h (by simp [h1])
    have hl : NL ∉ l := fun h1 => h (List.mem_cons_of_mem _ h1)
    have ih := split_lines_append l rest hl
    simp only [List.cons_append, split_lines, hc, if_false]
    rw [show l.append (NL :: rest) = l ++ NL :: rest from rfl, ih]

theorem help_body_no_newline (r : CStr × CStr) (h1 : NL ∉ r.1.chars) (h2 : NL ∉ r.2.chars) :
    NL ∉ help_body r := by
  simp only [help_body, List.mem_append, List.mem_replicate, not_or]
  refine ⟨⟨⟨h1, ?_⟩, ?_⟩, h2⟩
  · intro h
    exact absurd h.2 (by decide)
  · decide

theorem split_lines_help : ∀ reg : List console_cmd,
    (∀ cmd ∈ reg, NL ∉ cmd.name.chars ∧ NL ∉ cmd.help.chars) →
    split_lines (console_text
        (reg.map (fun cmd => Event.printf (help_body (cmd.name, cmd.help) ++ [NL])))) =
      reg.map (fun cmd => help_body (cmd.name, cmd.help))
  | [], _ => rfl
  | cmd :: cmds, h => by
    have hc := h cmd (List.mem_cons_self _ _)
    have ih := split_lines_help cmds (fun c hcm => h c (List.mem_cons_of_mem _ hcm))
    simp only [List.map_cons, console_text, List.append_assoc, List.singleton_append]
    rw [split_lines_append _ _ (help_body_no_newline (cmd.name, cmd.help) hc.1 hc.2), ih]

/-- C14, as stated, fails: on a table of two commands the output of the help
handler has three lines, the first of them empty, and the name `passthrough`
takes eleven characters, so that its line does not keep the ten-character
column. -/
theorem help_listing_counterexample :
    long_reg.length = 2 ∧
    split_lines (console_text (do_help (table_rows long_reg) 1 [lit "help"] console0).2.trace) =
      [[], "help       - Show this message".toList, "passthrough - sample".toList] ∧
    (split_lines
      (console_text (do_help (table_rows long_reg) 1 [lit "help"] console0).2.trace)).length
      ≠ long_reg.length := by
  decide

/-- C14, amended: for a table whose names and help texts hold no newline, the
help handler prints a newline and then, for each entry in table order, one text
made of the name padded with blanks on the right to ten characters, ` - `, the
help text and a newline; so the lines of its output are an empty line followed
by exactly one line `<name> - <help>` for each entry, in table order. The
padded name takes ten characters, or the length of the name when that is more.
Neither `argc` nor `argv` has any influence. -/
theorem help_listing_format (reg : List console_cmd) (argc : Int) (argv : List CStr)
    (s : Console) (hnl : ∀ cmd ∈ reg, NL ∉ cmd.name.chars ∧ NL ∉ cmd.help.chars) :
    do_help (table_rows reg) argc argv s =
      (0, { s with trace := s.trace ++
        (Event.printf [NL] ::
          reg.map (fun cmd => Event.printf (help_body (cmd.name, cmd.help) ++ [NL]))) }) ∧
    split_lines (console_text
        (Event.printf [NL] ::
          reg.map (fun cmd => Event.printf (help_body (cmd.name, cmd.help) ++ [NL])))) =
      [] :: reg.map (fun cmd => cmd.name.chars ++
        List.replicate (10 - cmd.name.chars.length) ' ' ++ " - ".toList ++ cmd.help.chars) ∧
    (∀ cmd ∈ reg,
      (cmd.name.chars ++ List.replicate (10 - cmd.name.chars.length) ' ').length =
        max 10 cmd.name.chars.length) ∧
    (∀ (argc2 : Int) (argv2 : List CStr),
      do_help (table_rows reg) argc2 argv2 s = do_help (table_rows reg) argc argv s) := by
  refine ⟨?_, ?_, ?_, ?_⟩
  · rw [do_help_eq]
    simp [table_rows, List.map_map, Function.comp_def]
  · have h := split_lines_help reg hnl
    have e : console_text (Event.printf [NL] ::
        reg.map (fun cmd => Event.printf (help_body (cmd.name, cmd.help) ++ [NL]))) =
        [] ++ NL :: console_text
          (reg.map (fun cmd => Event.printf (help_body (cmd.name, cmd.help) ++ [NL]))) := rfl
    rw [e, split_lines_append [] _ (List.not_mem_nil _), h]
    rfl
  · intro cmd _
    simp only [List.length_append, List.length_replicate]
    omega
  · intro argc2 argv2
    rw [do_help_eq, do_help_eq]

/-- Witness of the amended C14: the listing of a table of three entries. -/
theorem help_listing_format_witness :
    (∀ cmd ∈ full_reg, NL ∉ cmd.name.chars ∧ NL ∉ cmd.help.chars) ∧
    split_lines (console_text (do_help (table_rows full_reg) 1 [lit "help"] console0).2.trace) =
      [[], "help       - Show this message".toList, "cmd        - sample".toList,
       "reboot     - sample".toList] :=
  have hnl : ∀ cmd ∈ full_reg, NL ∉ cmd.name.chars ∧ NL ∉ cmd.help.chars := by decide
  have h := help_listing_format full_reg 1 [lit "help"] console0 hnl
  ⟨hnl, by rw [h.1]; decide⟩

/-! ## Output and the lock -/

/-- C16, as stated, fails: on a locked console `sigint` prints the interrupt
notice and `execute` prints its newline and the not-found message. -/
theorem output_while_locked_counterexample :
    console_locked1.console_locked ≠ 0 ∧
    (sigint sample_reg console_locked1).trace =
      [Event.printf "\nINTERRUPT\n".toList, Event.prompt] ∧
    execute sample_reg 1 [lit "bogus"] console_locked1 =
      some (1, { console_locked1 with trace :=
        [Event.printf "\n".toList,
         Event.printf "\nCommand bogus not found, type 'help' for a list\n".toList] }) := by
  decide

/-- C16, amended: while the console is locked the print callback `rl_print`
of the line editor emits nothing and leaves the state as it is, whatever its
argument. `sigint` and `execute` print without looking at the lock: whatever
the lock flag, `sigint` on a table without interrupt callbacks emits the
interrupt notice before the prompt redraw, and `execute` of an unknown command
emits the newline and the not-found message. -/
theorem output_suppressed_in_rl_print_only (reg : List console_cmd) (s : Console)
    (str : List Char) (argc : Int) (a0 : CStr) (rest : List CStr) :
    (s.console_locked ≠ 0 → rl_print s str = some s) ∧
    ((∀ cmd ∈ reg, cmd.interrupt = none) →
      (sigint reg s).trace = s.trace ++ [Event.printf "\nINTERRUPT\n".toList, Event.prompt]) ∧
    ((∀ cmd ∈ reg, cmd.name ≠ a0) →
      execute reg argc (a0 :: rest) s =
        some (1, { s with trace := s.trace ++
          [Event.printf "\n".toList, Event.printf (msg_not_found a0)] })) := by
  refine ⟨fun h => ?_, fun h => ?_, fun h => ?_⟩
  · simp [rl_print, h]
  · have hnone : reg.filterMap (fun cmd => cmd.interrupt) = [] := by
      rw [List.filterMap_eq_nil_iff]
      exact h
    simp [sigint, foldl_interrupt, hnone, console_lock, console_printf]
  · simp only [execute, execute_loop_not_found argc _ a0 _ reg h]
    simp [console_printf]

/-- Witness of the amended C16 on a locked console; the argument of `rl_print`
holds a `%d`, which is not looked at. -/
theorem output_suppressed_in_rl_print_only_witness :
    console_locked1.console_locked ≠ 0 ∧
    rl_print console_locked1 "%d > ".toList = some console_locked1 ∧
    (sigint sample_reg console_locked1).trace =
      [Event.printf "\nINTERRUPT\n".toList, Event.prompt] ∧
    execute sample_reg 1 [lit "bogus"] console_locked1 =
      some (1, { console_locked1 with trace :=
        [Event.printf "\n".toList, Event.printf (msg_not_found (lit "bogus"))] }) :=
  have h := output_suppressed_in_rl_print_only sample_reg console_locked1 "%d > ".toList 1
    (lit "bogus") []
  ⟨by decide, h.1 (by decide), h.2.1 (by simp [sample_reg, sample_cmd]), h.2.2 (by decide)⟩

/-- On an unlocked console `rl_print` hands its argument to `console_printf`
as the format string: `100%%` is printed as `100%`, and a conversion that
needs an argument has no defined behaviour. -/
theorem rl_print_format_string :
    rl_print console0 "100%%".toList =
      some { console0 with trace := [Event.printf "100%".toList] } ∧
    rl_print console0 "prompt > ".toList =
      some { console0 with trace := [Event.printf "prompt > ".toList] } ∧
    rl_print console0 "%d".toList = none := by
  decide

/-! ## Range of the escape counter -/

theorem console_insert_range (cfg : Config) (s : Console) (c : Char) (now : Nat)
    (hN : 2 ≤ cfg.ESC_COUNT) (h0 : 0 ≤ s.esc_count) (h1 : s.esc_count < cfg.ESC_COUNT) :
    0 ≤ (console_insert cfg s c now).esc_count ∧
    (console_insert cfg s c now).esc_count < cfg.ESC_COUNT := by
  by_cases hpass : s.passthrough = 0
  · have hsame : (console_insert cfg s c now).esc_count = s.esc_count := by
      simp only [console_insert, hpass, ne_eq, not_true_eq_false, if_false]
      split <;> rfl
    rw [hsame]
    exact ⟨h0, h1⟩
  · by_cases hc : c = cfg.KEY_ESC
    · subst hc
      by_cases heq : s.esc_count + 1 = cfg.ESC_COUNT
      · by_cases hgap : sub32 now s.esc_time < cfg.ESC_SPACE
        · rw [press_short cfg s now hpass (by omega) hgap]
          exact ⟨le_refl _, by show (0 : Int) < _; omega⟩
        · rw [press_toggle cfg s now hpass (by omega) (by omega) heq]
          exact ⟨le_refl _, by show (0 : Int) < _; omega⟩
      · obtain ⟨n, hn, hstep⟩ := press_no_toggle cfg s now hpass heq
        rw [hstep]
        show 0 ≤ n ∧ n < cfg.ESC_COUNT
        rcases hn with h | h <;> omega
    · rw [insert_other cfg s c now hpass hc]
      exact ⟨le_refl _, by show (0 : Int) < _; omega⟩

theorem enable_passthrough_esc_count (s : Console) (v : Int) :
    (enable_passthrough s v).esc_count = s.esc_count := by
  by_cases h : v = 0 <;> simp [enable_passthrough, console_lock, h]

theorem run_calls_range (cfg : Config) (hN : 2 ≤ cfg.ESC_COUNT) :
    ∀ (calls : List Call) (s : Console), 0 ≤ s.esc_count → s.esc_count < cfg.ESC_COUNT →
      0 ≤ (run_calls cfg s calls).esc_count ∧
      (run_calls cfg s calls).esc_count < cfg.ESC_COUNT
  | [], _, h0, h1 => ⟨h0, h1⟩
  | Call.insert c now :: calls, s, h0, h1 => by
    have h := console_insert_range cfg s c now hN h0 h1
    exact run_calls_range cfg hN calls (console_insert cfg s c now) h.1 h.2
  | Call.passthrough v :: calls, s, h0, h1 => by
    have h := enable_passthrough_esc_count s v
    exact run_calls_range cfg hN calls (enable_passthrough s v) (by rw [h]; exact h0)
      (by rw [h]; exact h1)

/-- C19: for `ESC_COUNT >= 2`, starting from `esc_count = 0`, after any
sequence of `console_insert` and `enable_passthrough` calls the counter
satisfies `0 <= esc_count < ESC_COUNT`; so, `ESC_COUNT` being an `int`, the
next increment does not leave the range of `int` either. -/
theorem esc_count_in_range (cfg : Config) (s : Console) (calls : List Call)
    (hN : 2 ≤ cfg.ESC_COUNT) (h0 : s.esc_count = 0) :
    0 ≤ (run_calls cfg s calls).esc_count ∧
    (run_calls cfg s calls).esc_count < cfg.ESC_COUNT ∧
    (cfg.ESC_COUNT ≤ 2 ^ 31 - 1 → (run_calls cfg s calls).esc_count + 1 ≤ 2 ^ 31 - 1) := by
  have h := run_calls_range cfg hN calls s (by omega) (by omega)
  exact ⟨h.1, h.2, fun hmax => by omega⟩

/-- Witness of C19: two escape keys, a letter, a call of `enable_passthrough`
and an escape key again leave the counter at 1, below `ESC_COUNT = 3`. -/
theorem esc_count_in_range_witness :
    (2 : Int) ≤ sample_cfg.ESC_COUNT ∧ console_passthrough.esc_count = 0 ∧
    (run_calls sample_cfg console_passthrough
      [Call.insert sample_cfg.KEY_ESC 1000000, Call.insert sample_cfg.KEY_ESC 2000000,
       Call.insert 'a' 2500000, Call.passthrough 1,
       Call.insert sample_cfg.KEY_ESC 3000000]).esc_count = 1 ∧
    (run_calls sample_cfg console_passthrough
      [Call.insert sample_cfg.KEY_ESC 1000000, Call.insert sample_cfg.KEY_ESC 2000000,
       Call.insert 'a' 2500000, Call.passthrough 1,
       Call.insert sample_cfg.KEY_ESC 3000000]).esc_count < sample_cfg.ESC_COUNT :=
  ⟨by decide, rfl, by decide,
   (esc_count_in_range sample_cfg console_passthrough
      [Call.insert sample_cfg.KEY_ESC 1000000, Call.insert sample_cfg.KEY_ESC 2000000,
       Call.insert 'a' 2500000, Call.passthrough 1,
       Call.insert sample_cfg.KEY_ESC 3000000] (by decide) rfl).2.1⟩
/-! ## Capacity of the candidate array -/

theorem completion_fill_trace (reg : List console_cmd) (part : CStr) (st : Scratch)
    (arr : List (Option Nat)) (hc : st.compl = some arr)
    (hcap : (matching_names reg part).length + 1 ≤ arr.length) :
    ∃ (sb : List Char) (arr1 : List (Option Nat)),
      fill_loop part (strlen part) (matching_names reg part).length reg ([], arr, 0) =
        some (sb, arr1, (matching_names reg part).length) ∧
      arr1.length = arr.length ∧
      completion_fill reg part (strlen part) (matching_names reg part).length st =
        some (read_candidates sb (arr1.set (matching_names reg part).length none),
          { st with sb := sb
                    compl := some (arr1.set (matching_names reg part).length none) }) := by
  have hk : (matching_names reg part).length =
      (reg.filter (fun cmd => decide (part.chars <+: cmd.name.chars))).length := by
    simp [matching_names]
  obtain ⟨tail, offs, arr1, hrun, hlen, hoffs, _, _⟩ :=
    fill_loop_spec part (matching_names reg part).length reg [] arr 0 (by omega)
  have hi : offs.length = (matching_names reg part).length := by omega
  rw [List.nil_append, Nat.zero_add, hi] at hrun
  refine ⟨tail, arr1, hrun, hlen, ?_⟩
  have hlt : (matching_names reg part).length < arr1.length := by omega
  simp only [completion_fill, hc, strbuf_clear, hrun, hlt, if_true]

theorem completion_step_capacity (reg : List console_cmd) (argc : Int) (argv : List CStr)
    (st : Scratch) (hinv : st.complsize = st.capacity) (hargv : argc = 1 → argv ≠ []) :
    ∃ (r : List CStr) (st1 : Scratch),
      completion reg argc argv true st = some (r, st1) ∧
      st.complsize ≤ st1.complsize ∧ st1.complsize = st1.capacity ∧
      ∀ (part : CStr) (rest : List CStr), argc = 1 → argv = part :: rest →
        count_loop part (strlen part) reg 0 + 1 ≤ st1.complsize ∧
        r.length = count_loop part (strlen part) reg 0 ∧
        ∃ (arr0 : List (Option Nat)) (sb : List Char) (arr1 : List (Option Nat)),
          arr0.length = st1.complsize ∧
          fill_loop part (strlen part) (count_loop part (strlen part) reg 0) reg ([], arr0, 0) =
            some (sb, arr1, count_loop part (strlen part) reg 0) ∧
          st1.sb = sb ∧
          st1.compl = some (arr1.set (count_loop part (strlen part) reg 0) none) := by
  by_cases hargc : argc = 1
  · cases argv with
    | nil => exact absurd rfl (hargv hargc)
    | cons part rest =>
      subst hargc
      have hcount : count_loop part (strlen part) reg 0 = (matching_names reg part).length := by
        rw [count_loop_eq]
        simp [matching_names]
      have hfacts : ∃ (arr0 : List (Option Nat)) (st0 : Scratch),
          st0.compl = some arr0 ∧ arr0.length = st0.complsize ∧ st0.sb = st.sb ∧
          st.complsize ≤ st0.complsize ∧
          (matching_names reg part).length + 1 ≤ st0.complsize ∧
          completion reg 1 (part :: rest) true st =
            completion_fill reg part (strlen part) (matching_names reg part).length st0 := by
        by_cases hgrow : (matching_names reg part).length + 1 > st.complsize
        · obtain ⟨arr, harr, hlen⟩ :=
            realloc_ok_length st.compl ((matching_names reg part).length + 1)
          refine ⟨arr, { st with compl := some arr
                                 complsize := (matching_names reg part).length + 1 },
            rfl, hlen, rfl, by show st.complsize ≤ _ + 1; omega, le_refl _, ?_⟩
          simp only [completion, if_true, hcount, if_pos hgrow, harr]
        · cases hc : st.compl with
          | none =>
            simp only [Scratch.capacity, hc] at hinv
            omega
          | some arr =>
            simp only [Scratch.capacity, hc] at hinv
            refine ⟨arr, st, hc, hinv.symm, rfl, le_refl _, by omega, ?_⟩
            simp only [completion, if_true, hcount, if_neg hgrow]
      obtain ⟨arr0, st0, hc0, hlen0, _, hmono, hroom, hcall⟩ := hfacts
      obtain ⟨sb, arr1, hrun, hlen1, hfill⟩ :=
        completion_fill_trace reg part st0 arr0 hc0 (by omega)
      obtain ⟨st2, hspec, _, _⟩ := completion_fill_spec reg part st0 arr0 hc0 (by omega)
      have hres := hfill.symm.trans hspec
      simp only [Option.some.injEq, Prod.mk.injEq] at hres
      refine ⟨_, _, hcall.trans hfill, hmono, ?_, ?_⟩
      · simp [Scratch.capacity, hlen1, hlen0]
      · intro part2 rest2 _ hargv2
        simp only [List.cons.injEq] at hargv2
        obtain ⟨hp, _⟩ := hargv2
        subst hp
        rw [hcount]
        refine ⟨hroom, ?_, arr0, sb, arr1, hlen0, hrun, rfl, rfl⟩
        rw [hres.1]
        cases hm : matching_names reg part with
        | nil => simp
        | cons n ns => split <;> rfl
  · refine ⟨nocompl, st, by simp [completion, hargc], le_refl _, hinv, ?_⟩
    intro part rest h
    exact absurd h hargc

theorem completion_run_invariant (reg : List console_cmd) :
    ∀ (calls : List (Int × List CStr)) (st : Scratch), st.complsize = st.capacity →
      (∀ call ∈ calls, call.1 = 1 → call.2 ≠ []) →
      ∃ st1 : Scratch, completion_run reg calls st = some st1 ∧
        st.complsize ≤ st1.complsize ∧ st1.complsize = st1.capacity
  | [], st, hinv, _ => ⟨st, rfl, le_refl _, hinv⟩
  | call :: calls, st, hinv, hcalls => by
    obtain ⟨r, st1, hcall, hmono, hinv1, _⟩ :=
      completion_step_capacity reg call.1 call.2 st hinv (hcalls call (List.mem_cons_self _ _))
    obtain ⟨st2, hrun, hmono2, hinv2⟩ := completion_run_invariant reg calls st1 hinv1
      (fun c hc => hcalls c (List.mem_cons_of_mem _ hc))
    refine ⟨st2, ?_, le_trans hmono hmono2, hinv2⟩
    simp only [completion_run, hcall, hrun]

/-- C20: take any sequence of `completion` calls from the fresh statics, all
allocations succeeding (and `argv` not empty when `argc = 1`). Every call of
the sequence is defined, starts with `complsize` equal to the real capacity of
the candidate array and ends so, and does not decrease `complsize`. For a call
with `argc = 1`, `complsize` at the time of the writes is at least
`ncompl + 1`; the second pass runs on an array of `complsize` slots without
leaving it and ends at index `ncompl`, where the terminator is written; the
caller reads `ncompl` candidates. -/
theorem completion_capacity_respected (reg : List console_cmd)
    (before : List (Int × List CStr)) (argc : Int) (argv : List CStr)
    (hbefore : ∀ call ∈ before, call.1 = 1 → call.2 ≠ [])
    (hargv : argc = 1 → argv ≠ []) :
    ∃ (st : Scratch) (r : List CStr) (st1 : Scratch),
      completion_run reg before Scratch.init = some st ∧
      completion reg argc argv true st = some (r, st1) ∧
      st.complsize = st.capacity ∧
      st.complsize ≤ st1.complsize ∧ st1.complsize = st1.capacity ∧
      ∀ (part : CStr) (rest : List CStr), argc = 1 → argv = part :: rest →
        count_loop part (strlen part) reg 0 + 1 ≤ st1.complsize ∧
        r.length = count_loop part (strlen part) reg 0 ∧
        ∃ (arr0 : List (Option Nat)) (sb : List Char) (arr1 : List (Option Nat)),
          arr0.length = st1.complsize ∧
          fill_loop part (strlen part) (count_loop part (strlen part) reg 0) reg ([], arr0, 0) =
            some (sb, arr1, count_loop part (strlen part) reg 0) ∧
          st1.sb = sb ∧
          st1.compl = some (arr1.set (count_loop part (strlen part) reg 0) none) := by
  obtain ⟨st, hrun, _, hinv⟩ := completion_run_invariant reg before Scratch.init rfl hbefore
  obtain ⟨r, st1, hcall, hmono, hinv1, hwrites⟩ :=
    completion_step_capacity reg argc argv st hinv hargv
  exact ⟨st, r, st1, hrun, hcall, hinv, hmono, hinv1, hwrites⟩

/-- Witness of C20: on `compl_reg`, after completing `he` (four slots) and a
call with `argc = 2`, completing `x` keeps the four slots and writes two of
them. -/
theorem completion_capacity_respected_witness :
    ∃ (st : Scratch) (r : List CStr) (st1 : Scratch),
      completion_run compl_reg [(1, [lit "he"]), (2, [lit "he", lit "a"])] Scratch.init
        = some st ∧
      completion compl_reg 1 [lit "x"] true st = some (r, st1) ∧
      st.complsize = 4 ∧ st1.complsize = 4 ∧ st1.capacity = 4 ∧ r = [lit "x"] ∧
      count_loop (lit "x") (strlen (lit "x")) compl_reg 0 = 1 := by
  obtain ⟨st, r, st1, hrun, hcall, _, _, _, _⟩ :=
    completion_capacity_respected compl_reg [(1, [lit "he"]), (2, [lit "he", lit "a"])] 1
      [lit "x"] (by decide) (by decide)
  have hst : completion_run compl_reg [(1, [lit "he"]), (2, [lit "he", lit "a"])] Scratch.init
      = some { sb := "lp\x00hello\x00hex\x00".toList
               compl := some [some 0, some 3, some 9, none], complsize := 4 } := by decide
  rw [hst] at hrun
  simp only [Option.some.injEq] at hrun
  subst hrun
  have hres : completion compl_reg 1 [lit "x"] true
      { sb := "lp\x00hello\x00hex\x00".toList
        compl := some [some 0, some 3, some 9, none], complsize := 4 } =
      some ([lit "x"], { sb := "x\x00".toList
                         compl := some [some 0, none, some 9, none], complsize := 4 }) := by
    decide
  rw [hres] at hcall
  simp only [Option.some.injEq, Prod.mk.injEq] at hcall
  obtain ⟨hr, hs⟩ := hcall
  subst hr hs
  exact ⟨_, _, _, rfl, hres, rfl, rfl, rfl, rfl, by decide⟩

end Frankenstein
